import Mathlib

/-!
Verification development for the `bevy_swash` outlined-text rendering crate
(`src/lib.rs`).  The crate shapes multi-section styled text with the `swash`
library, rasterizes fill and outline glyph bitmaps, lays the glyphs out in
lines with justification and anchoring, composes them into per-z-layer RGBA
atlases, caches the atlases per entity, and extracts them each frame as
positioned sprites.

Shallow embedding conventions:
* `f32` values are modelled as `ℚ` (exact arithmetic; the claims under study
  are about the algebra of the layout/compose formulas, not float rounding).
* swash (shaping and scaling, an external collaborator per the spec) is
  modelled by a `FontEnv` record of functions: font metrics, a shaped cluster
  stream, and rasterizers returning `Option SwashImage` exactly as
  `swash::scale::Render::render` returns `Option<Image>`.
* a Rust panic (`Option::unwrap` on `None`, as in `glyph_to_bitmap` /
  `glyph_outline_to_bitmap`) is modelled by propagating `none` out of the
  whole computation: `create_glyph_images` and `create_missing_text` return
  `Option _`, where `none` means the recompute aborted.
* byte buffers of RGBA pixels are modelled as lists of `Rgba` records (one
  entry per pixel, i.e. per 4 bytes); all index arithmetic in the source is
  4-byte aligned so this is a faithful pixel-level view.
* bevy's `HashMap<Entity, _>` cache is modelled as an association list keyed
  by `ℕ`, `Assets<Image>` as a monotone handle counter plus a store, and
  bevy change detection (`Ref::is_changed`, `RemovedComponents`,
  `WindowScaleFactorChanged`) as explicit booleans / lists on a `World`
  record.
-/

namespace BevySwash

/-- One RGBA pixel (bytes in the source; the numeric range is irrelevant to
the claims, so plain `ℕ` components are used). -/
structure Rgba where
  r : ℕ
  g : ℕ
  b : ℕ
  a : ℕ
deriving DecidableEq, Repr

/-- Transparent black, the zero-initialized pixel of a freshly allocated
compose buffer (`vec![0; ...]` in `compose_glyph_images`). -/
def Rgba.zero : Rgba := ⟨0, 0, 0, 0⟩

/-- Placement of a rasterized glyph bitmap, as produced by swash
(`left`/`top` bearings, pixel `width`/`height`). -/
structure Placement where
  left : ℤ
  top : ℤ
  width : ℕ
  height : ℕ
deriving DecidableEq, Repr

/-- An alpha bitmap returned by the swash rasterizer
(`swash::scale::image::Image`, `Format::Alpha`): a placement plus row-major
alpha bytes. -/
structure SwashImage where
  placement : Placement
  data : List ℕ
deriving DecidableEq, Repr

/-- A bevy `Image`: extent plus row-major RGBA pixel data
(`TextureFormat::Rgba8UnormSrgb`, one `Rgba` per texel). -/
structure Image where
  width : ℕ
  height : ℕ
  data : List Rgba
deriving DecidableEq, Repr

/-- Pixel lookup in an image's flat buffer; rust indexes
`data[idx*4 .. idx*4+4]`, we index whole pixels. Out-of-range reads return
transparent black (real swash bitmaps always have `width*height` entries). -/
def Image.pixel (img : Image) (idx : ℕ) : Rgba :=
  img.data.getD idx Rgba.zero

/-- Outline style of a text section (`OutlineStyle` in the source):
either no outline or a stroked outline of the given width and color. -/
inductive OutlineStyle where
  | none : OutlineStyle
  | outline (width : ℚ) (color : Rgba) : OutlineStyle
deriving DecidableEq, Repr

/-- One styled text section (`OutlinedTextSection`): text, fill color (as the
`as_rgba_u8` bytes), and outline style. -/
structure OutlinedTextSection where
  value : String
  color : Rgba
  outline : OutlineStyle
deriving DecidableEq, Repr

/-- Font and size for a text entity (`OutlinedFontStyle`); the font handle is
an opaque asset id, modelled as `ℕ`. -/
structure OutlinedFontStyle where
  font : ℕ
  size : ℚ
deriving DecidableEq, Repr

/-- Per-line justification (`JustifyOutlinedText`). -/
inductive JustifyOutlinedText where
  | left
  | center
  | right
deriving DecidableEq, Repr

/-- A styled text component (`OutlinedText`). -/
structure OutlinedText where
  sections : List OutlinedTextSection
  font_style : OutlinedFontStyle
  justify : JustifyOutlinedText
deriving DecidableEq, Repr

/-- One shaped glyph (`swash::shape::cluster::Glyph`): glyph id and horizontal
advance. -/
structure Glyph where
  id : ℕ
  advance : ℚ
deriving DecidableEq, Repr

/-- One shaped glyph cluster as consumed by the `shape_with` callback:
the section index threaded through shaping (`glyph_cluster.data`), whether
`glyph_cluster.info.whitespace() == Whitespace::Newline`, and the glyphs. -/
structure GlyphCluster where
  data : ℕ
  isNewline : Bool
  glyphs : List Glyph
deriving DecidableEq, Repr

/-- Font metrics at a shaped size (`shaper.metrics()`). -/
structure Metrics where
  ascent : ℚ
  descent : ℚ
  leading : ℚ
deriving DecidableEq, Repr

/-- Model of the external swash shaping/scaling capabilities of one resolved
font (`FontRef` plus the `ShapeContext`/`ScaleContext` machinery, an external
collaborator per the spec):
* `metrics size` — the shaper metrics at a pixel size;
* `shape sections size` — the ordered cluster stream produced by adding every
  section to the shaper (`add_section_to_shaper`) and running `shape_with`;
* `render size id` — `Render::new(&[Source::Outline]).format(Alpha).render`,
  which returns `Option<Image>`;
* `renderStroke size id strokeWidth` — the same with the `Stroke` style used
  by `glyph_outline_to_bitmap`. -/
structure FontEnv where
  metrics : ℚ → Metrics
  shape : List OutlinedTextSection → ℚ → List GlyphCluster
  render : ℚ → ℕ → Option SwashImage
  renderStroke : ℚ → ℕ → ℚ → Option SwashImage

/-- Converts an alpha bitmap to a colored RGBA image (`bitmap_to_image`):
each alpha byte is paired with the section color's RGB. -/
def bitmap_to_image (bitmap : SwashImage) (color : Rgba) : Image :=
  { width := bitmap.placement.width
    height := bitmap.placement.height
    data := bitmap.data.map fun alpha => ⟨color.r, color.g, color.b, alpha⟩ }

/-- A positioned glyph bitmap produced by the shaping loop (`GlyphImage`). -/
structure GlyphImage where
  offset_x : ℚ
  offset_y : ℚ
  offset_z : ℚ
  image : Image
deriving DecidableEq, Repr

/-- One accumulated line (`OutlinedGlyphLine`). -/
structure OutlinedGlyphLine where
  glyphs : List GlyphImage
  width : ℚ
deriving DecidableEq, Repr

/-- State of the `shape_with` closure: finished lines, the line being
accumulated, and the horizontal cursor `x`. -/
structure ShapeState where
  lines : List OutlinedGlyphLine
  currentLine : OutlinedGlyphLine
  x : ℚ
deriving DecidableEq, Repr

/-- Appends a positioned glyph bitmap to the current line
(`current_line.glyphs.push(...)`). -/
def ShapeState.push (st : ShapeState) (g : GlyphImage) : ShapeState :=
  { st with currentLine := { st.currentLine with glyphs := st.currentLine.glyphs ++ [g] } }

/-- Processes the glyphs of one cluster (the `for glyph in
glyph_cluster.glyphs` loop).  For each glyph: if the owning section has an
outline style, rasterize the stroked bitmap (`glyph_outline_to_bitmap`, whose
`.unwrap()` panic is modelled by returning `none`) and push it at z = -0.001
when it has nonzero extent; then rasterize the fill bitmap
(`glyph_to_bitmap`, same panic modelling) and push it at z = 0 when it has
nonzero extent; finally advance the cursor by the glyph advance. -/
def processGlyphs (env : FontEnv) (size descent scaleFactor : ℚ)
    (color : Rgba) (outline : OutlineStyle) :
    ShapeState → List Glyph → Option ShapeState
  | st, [] => some st
  | st, glyph :: rest =>
    let afterOutline : Option ShapeState :=
      match outline with
      | .none => some st
      | .outline outlineWidth outlineColor =>
        let strokeWidth := outlineWidth / scaleFactor
        match env.renderStroke size glyph.id strokeWidth with
        | Option.none => none
        | some outlineBitmap =>
          let outlineImage := bitmap_to_image outlineBitmap outlineColor
          if outlineImage.width ≠ 0 ∧ outlineImage.height ≠ 0 then
            some (st.push
              { offset_x := st.x + (outlineBitmap.placement.left : ℚ)
                offset_y := descent - (outlineBitmap.placement.height : ℚ)
                  + (outlineBitmap.placement.top : ℚ)
                offset_z := -(1/1000)
                image := outlineImage })
          else some st
    match afterOutline with
    | Option.none => none
    | some st1 =>
      match env.render size glyph.id with
      | Option.none => none
      | some bitmap =>
        let image := bitmap_to_image bitmap color
        let st2 :=
          if image.width ≠ 0 ∧ image.height ≠ 0 then
            st1.push
              { offset_x := st1.x + (bitmap.placement.left : ℚ)
                offset_y := descent - (bitmap.placement.height : ℚ)
                  + (bitmap.placement.top : ℚ)
                offset_z := 0
                image := image }
          else st1
        processGlyphs env size descent scaleFactor color outline
          { st2 with x := st2.x + glyph.advance } rest

/-- Fallback section used to model the `sections[glyph_cluster.data as usize]`
index (shaping always tags clusters with in-range section indices). -/
def defaultSection : OutlinedTextSection := ⟨"", Rgba.zero, OutlineStyle.none⟩

/-- Processes one cluster of the `shape_with` callback: look up the owning
section, close the current line on a newline cluster
(`current_line.width = x; x = 0.0; lines.push(mem::take(&mut current_line))`),
then process the cluster's glyphs. -/
def processClusters (env : FontEnv) (size descent scaleFactor : ℚ)
    (sections : List OutlinedTextSection) :
    ShapeState → List GlyphCluster → Option ShapeState
  | st, [] => some st
  | st, cluster :: rest =>
    let relatedSection := sections.getD cluster.data defaultSection
    let st1 :=
      if cluster.isNewline then
        { lines := st.lines ++ [⟨st.currentLine.glyphs, st.x⟩]
          currentLine := ⟨[], 0⟩
          x := 0 }
      else st
    match processGlyphs env size descent scaleFactor relatedSection.color
        relatedSection.outline st1 cluster.glyphs with
    | Option.none => none
    | some st2 => processClusters env size descent scaleFactor sections st2 rest

/-- The shaping phase of `create_glyph_images` (everything up to and including
closing the final line: `current_line.width = x; lines.push(current_line)`).
Returns `none` when a rasterizer `.unwrap()` would panic. -/
def shapeLines (env : FontEnv) (text : OutlinedText) (scaleFactor : ℚ) :
    Option (List OutlinedGlyphLine) :=
  let size := text.font_style.size / scaleFactor
  let m := env.metrics size
  match processClusters env size m.descent scaleFactor text.sections
      ⟨[], ⟨[], 0⟩, 0⟩ (env.shape text.sections size) with
  | Option.none => none
  | some st => some (st.lines ++ [⟨st.currentLine.glyphs, st.x⟩])

/-- Line height from the shaper metrics
(`let line_height = descent + ascent + leading`). -/
def line_height (m : Metrics) : ℚ := m.descent + m.ascent + m.leading

/-- Overall text width
(`lines.iter().map(|line| line.width).fold(0.0, f32::max)`). -/
def textWidthOf (lines : List OutlinedGlyphLine) : ℚ :=
  (lines.map (·.width)).foldl max 0

/-- Overall text height
(`descent + ascent + (lines.len() - 1) as f32 * line_height`; the `usize`
subtraction is safe since the loop always pushes at least one line). -/
def textHeightOf (m : Metrics) (lines : List OutlinedGlyphLine) : ℚ :=
  m.descent + m.ascent + ((lines.length - 1 : ℕ) : ℚ) * line_height m

/-- Per-line justification padding (the `match text.justify` in the layout
loop). -/
def justifyPadding (justify : JustifyOutlinedText) (textWidth lineWidth : ℚ) : ℚ :=
  match justify with
  | .left => 0
  | .center => (textWidth - lineWidth) / 2
  | .right => textWidth - lineWidth

/-- Applies one line's final offsets to each of its glyphs (the inner
`for glyph in line.glyphs.iter_mut()` loop). -/
def layoutLine (anchorOffsetX anchorOffsetY padding vOffset : ℚ)
    (line : OutlinedGlyphLine) : List GlyphImage :=
  line.glyphs.map fun g =>
    { g with
      offset_x := g.offset_x + anchorOffsetX + padding
      offset_y := g.offset_y + anchorOffsetY + vOffset }

/-- The layout loop over enumerated lines (`for (i, line) in
lines.iter_mut().enumerate()`), already flattened in order as done by the
final `lines.into_iter().flat_map(|line| line.glyphs).collect()`. -/
def layoutGo (m : Metrics) (justify : JustifyOutlinedText)
    (lineCount : ℕ) (textWidth : ℚ) (anchorOffsetX anchorOffsetY : ℚ) :
    ℕ → List OutlinedGlyphLine → List GlyphImage
  | _, [] => []
  | i, line :: rest =>
    layoutLine anchorOffsetX anchorOffsetY
      (justifyPadding justify textWidth line.width)
      (((lineCount - i - 1 : ℕ) : ℚ) * line_height m) line
      ++ layoutGo m justify lineCount textWidth anchorOffsetX anchorOffsetY (i + 1) rest

/-- The layout phase of `create_glyph_images` (everything after the shaping
loop): box dimensions, anchor offset, per-line justification padding and
vertical stacking, then flattening. The anchor parameter is the
`anchor.as_vec()` vector. -/
def layoutLines (m : Metrics) (justify : JustifyOutlinedText) (anchor : ℚ × ℚ)
    (lines : List OutlinedGlyphLine) : List GlyphImage :=
  let lineCount := lines.length
  let textWidth := textWidthOf lines
  let textHeight := textHeightOf m lines
  let anchorOffsetX := -anchor.1 * textWidth - textWidth / 2
  let anchorOffsetY := -anchor.2 * textHeight - textHeight / 2
  layoutGo m justify lineCount textWidth anchorOffsetX anchorOffsetY 0 lines

/-- `create_glyph_images`: early-return on an empty section list, then shape
into lines and lay them out.  `none` models a rasterizer `.unwrap()` panic
aborting the recompute. -/
def create_glyph_images (env : FontEnv) (text : OutlinedText) (anchor : ℚ × ℚ)
    (scaleFactor : ℚ) : Option (List GlyphImage) :=
  if text.sections.isEmpty then some [] else
    match shapeLines env text scaleFactor with
    | Option.none => none
    | some lines =>
      some (layoutLines (env.metrics (text.font_style.size / scaleFactor))
        text.justify anchor lines)

/-! ## Atlas composition (`compose_glyph_images`) -/

/-- Rust `f32::round` (round half away from zero), on `ℚ`. -/
def rustRound (q : ℚ) : ℤ :=
  if 0 ≤ q then ⌊q + 1/2⌋ else ⌈q - 1/2⌉

/-- Bounding box accumulator of the compose loop. -/
structure BBox where
  x_min : ℚ
  x_max : ℚ
  y_min : ℚ
  y_max : ℚ
deriving DecidableEq, Repr

/-- The placed rectangle of one glyph image (offset plus image extent). -/
def glyphRect (g : GlyphImage) : BBox :=
  ⟨g.offset_x, g.offset_x + (g.image.width : ℚ),
    g.offset_y, g.offset_y + (g.image.height : ℚ)⟩

/-- One step of the bounding-box fold (the `x_min = x_min.min(x); ...` loop
body). -/
def bboxUnion (b : BBox) (g : GlyphImage) : BBox :=
  ⟨min b.x_min g.offset_x, max b.x_max (g.offset_x + (g.image.width : ℚ)),
    min b.y_min g.offset_y, max b.y_max (g.offset_y + (g.image.height : ℚ))⟩

/-- Bounding box over a non-empty group.  The source seeds the fold with
`±f32::INFINITY`; since `min ∞ v = v` and `max (-∞) v = v`, folding the tail
from the head's rectangle is the same fold. -/
def groupBBox (g0 : GlyphImage) (rest : List GlyphImage) : BBox :=
  rest.foldl bboxUnion (glyphRect g0)

/-- Iterates `f 0`, `f 1`, …, `f (n-1)` in order over an accumulator,
modelling Rust's `for i in 0..n` loops. -/
def loopN (n : ℕ) (f : ℕ → α → α) (init : α) : α :=
  match n with
  | 0 => init
  | k + 1 => f k (loopN k f init)

/-- Destination x origin of a member bitmap:
`(glyph.offset_x - x_min).round() as u32`. -/
def destX (xmin : ℚ) (g : GlyphImage) : ℕ :=
  (rustRound (g.offset_x - xmin)).toNat

/-- Destination y origin of a member bitmap (vertical flip):
`total_height - height - (glyph.offset_y - y_min).round() as u32`.  The `u32`
subtractions are modelled with `ℕ` truncated subtraction; claim C10 shows
they never truncate. -/
def destY (totalHeight : ℕ) (ymin : ℚ) (g : GlyphImage) : ℕ :=
  totalHeight - g.image.height - (rustRound (g.offset_y - ymin)).toNat

/-- Blits one member bitmap into the compose buffer (the nested
`for source_y`/`for source_x` loops): a source pixel is copied exactly when
its alpha is nonzero (`if source_data[3] != 0`), overwriting the destination
(`copy_from_slice`).  `List.set` is a no-op out of bounds; claim C10 shows
every write is in bounds. -/
def blitGlyph (totalWidth totalHeight : ℕ) (xmin ymin : ℚ)
    (buf : List Rgba) (g : GlyphImage) : List Rgba :=
  let width := g.image.width
  let height := g.image.height
  let dx := destX xmin g
  let dy := destY totalHeight ymin g
  loopN height (fun sourceY b =>
    loopN width (fun sourceX b =>
      let sourceData := g.image.pixel (sourceY * width + sourceX)
      if sourceData.a ≠ 0 then
        b.set ((dy + sourceY) * totalWidth + dx + sourceX) sourceData
      else b) b) buf

/-- The full compose buffer: zero-initialized
(`vec![0; total_width * total_height * 4]`, one `Rgba.zero` per pixel here)
then each member blitted in list order. -/
def composeData (totalWidth totalHeight : ℕ) (xmin ymin : ℚ)
    (glyph_images : List GlyphImage) : List Rgba :=
  glyph_images.foldl (blitGlyph totalWidth totalHeight xmin ymin)
    (List.replicate (totalWidth * totalHeight) Rgba.zero)

/-- The composed atlas image of one non-empty group (the `Image::new` at the
end of `compose_glyph_images`).  The group is passed head/tail so that
non-emptiness (which the source guarantees by guarding with `is_empty` and
then calling `.first().unwrap()`) is structural. -/
def composeImage (g0 : GlyphImage) (rest : List GlyphImage) : Image :=
  let bb := groupBBox g0 rest
  let totalWidth := ⌈bb.x_max - bb.x_min⌉.toNat
  let totalHeight := ⌈bb.y_max - bb.y_min⌉.toNat
  { width := totalWidth
    height := totalHeight
    data := composeData totalWidth totalHeight bb.x_min bb.y_min (g0 :: rest) }

/-- The bevy `Assets<Image>` store: a monotone fresh-handle counter plus the
stored images.  `add` returns a brand-new handle. -/
structure Assets where
  next : ℕ
  store : List (ℕ × Image)
deriving DecidableEq, Repr

/-- `Assets::add`: allocate a fresh handle for the image. -/
def Assets.add (a : Assets) (img : Image) : ℕ × Assets :=
  (a.next, ⟨a.next + 1, a.store ++ [(a.next, img)]⟩)

/-- A composed per-layer atlas with its origin offset and z
(`ComposedGlyphImage`; the `image` field is the asset handle). -/
structure ComposedGlyphImage where
  x : ℚ
  y : ℚ
  z : ℚ
  image : ℕ
deriving DecidableEq, Repr

/-- `compose_glyph_images`: bounding box, compose buffer, image allocation;
`z` is the first member's `offset_z` (`glyph_images.first().unwrap()`),
origin is `(x_min, y_min)`. -/
def compose_glyph_images (images : Assets) (g0 : GlyphImage)
    (rest : List GlyphImage) : ComposedGlyphImage × Assets :=
  let bb := groupBBox g0 rest
  let (handle, images') := images.add (composeImage g0 rest)
  (⟨bb.x_min, bb.y_min, g0.offset_z, handle⟩, images')

/-! ## Cache and the `create_missing_text` system -/

/-- The per-entity atlas cache (`OutlinedGlyphs.cache`,
a `HashMap<Entity, Vec<ComposedGlyphImage>>`), modelled as an association
list keyed by entity id. -/
def Cache := List (ℕ × List ComposedGlyphImage)

/-- `HashMap::get`. -/
def lookupCache : Cache → ℕ → Option (List ComposedGlyphImage)
  | [], _ => none
  | p :: ps, i => if p.1 = i then some p.2 else lookupCache ps i

/-- `HashMap::contains_key`. -/
def containsCache (c : Cache) (i : ℕ) : Bool :=
  (lookupCache c i).isSome

/-- `HashMap::insert` (replace an existing binding or append a new one). -/
def insertCache : Cache → ℕ → List ComposedGlyphImage → Cache
  | [], i, l => [(i, l)]
  | p :: ps, i, l => if p.1 = i then (i, l) :: ps else p :: insertCache ps i l

/-- `HashMap::remove`. -/
def removeCache : Cache → ℕ → Cache
  | [], _ => []
  | p :: ps, i => if p.1 = i then removeCache ps i else p :: removeCache ps i

/-- One text entity as seen by `create_missing_text`'s query: its id, its
`OutlinedText` and `Anchor` components (the anchor as its `as_vec()` vector),
its global transform (modelled as a translation, used only by extraction),
and bevy's change-detection flags for the two `Ref`s. -/
structure WorldEntity where
  id : ℕ
  text : OutlinedText
  anchor : ℚ × ℚ
  translation : ℚ × ℚ × ℚ
  textChanged : Bool
  anchorChanged : Bool

/-- The world state read and written by one run of `create_missing_text`:
the font assets, the query of text entities, the removed-component ids, the
`WindowScaleFactorChanged` event flag (`scale_factor_changed.read().last().is_some()`),
the resolved primary-window scale factor, the image assets and the cache. -/
structure World where
  fonts : ℕ → Option FontEnv
  entities : List WorldEntity
  removed : List ℕ
  scaleFactorChanged : Bool
  scaleFactor : ℚ
  images : Assets
  cache : Cache

/-- Partitions the glyph images by z and composes the 0–2 non-empty groups
(the `partition`/`is_empty`/`compose_glyph_images` block of
`create_missing_text`): fill atlas first, then the outline atlas. -/
def composeGroups (images : Assets) (glyph_images : List GlyphImage) :
    List ComposedGlyphImage × Assets :=
  let (glyphs, outlines) := glyph_images.partition fun g => g.offset_z == 0
  let (acc1, images1) :=
    match glyphs with
    | [] => (([] : List ComposedGlyphImage), images)
    | g0 :: rest =>
      let (c, images') := compose_glyph_images images g0 rest
      ([c], images')
  match outlines with
  | [] => (acc1, images1)
  | g0 :: rest =>
    let (c, images') := compose_glyph_images images1 g0 rest
    (acc1 ++ [c], images')

/-- The body of `create_missing_text`'s per-entity loop: skip when nothing
changed and a cache entry exists; otherwise, if the font resolves, recompute
the glyph images (propagating the rasterizer panic as `none`), compose them
and insert the (possibly empty) atlas list. -/
def cmtProcessEntity (fonts : ℕ → Option FontEnv) (factorChanged : Bool)
    (scaleFactor : ℚ) (st : Cache × Assets) (e : WorldEntity) :
    Option (Cache × Assets) :=
  if !factorChanged && !e.textChanged && !e.anchorChanged
      && containsCache st.1 e.id then
    some st
  else
    match fonts e.text.font_style.font with
    | Option.none => some st
    | some env =>
      match create_glyph_images env e.text e.anchor scaleFactor with
      | Option.none => none
      | some glyph_images =>
        let (gs, images') := composeGroups st.2 glyph_images
        some (insertCache st.1 e.id gs, images')

/-- The per-entity loop of `create_missing_text`, in query order. -/
def cmtLoop (fonts : ℕ → Option FontEnv) (factorChanged : Bool)
    (scaleFactor : ℚ) : Cache × Assets → List WorldEntity → Option (Cache × Assets)
  | st, [] => some st
  | st, e :: es =>
    match cmtProcessEntity fonts factorChanged scaleFactor st e with
    | Option.none => none
    | some st' => cmtLoop fonts factorChanged scaleFactor st' es

/-- `create_missing_text`: first drop the cache entries of removed entities,
then run the per-entity recompute loop.  `none` models a rasterizer panic
aborting the whole system run. -/
def create_missing_text (world : World) : Option World :=
  let cache0 := world.removed.foldl removeCache world.cache
  match cmtLoop world.fonts world.scaleFactorChanged world.scaleFactor
      (cache0, world.images) world.entities with
  | Option.none => none
  | some (cache, images) =>
    some { world with cache := cache, images := images }

/-! ## Frame extraction (`extract_outlined_text`) -/

/-- One extracted sprite, reduced to the fields the claims are about: the
composed transform translation (`*global_transform * transform`, modelled for
translation transforms), the atlas image handle, and the originating entity
(`original_entity: Some(original_entity)`). -/
structure ExtractedSprite where
  translation : ℚ × ℚ × ℚ
  image : ℕ
  original_entity : ℕ
deriving DecidableEq, Repr

/-- `extract_outlined_text`: for every queried text entity that has a cache
entry, emit one sprite per composed atlas; entities without a cache entry
emit nothing. -/
def extract_outlined_text (entities : List WorldEntity) (cache : Cache) :
    List ExtractedSprite :=
  (entities.map fun e =>
    match lookupCache cache e.id with
    | Option.none => []
    | some glyph_images =>
      glyph_images.map fun g =>
        { translation :=
            (e.translation.1 + g.x, e.translation.2.1 + g.y, e.translation.2.2 + g.z)
          image := g.image
          original_entity := e.id }).flatten

/-! ## Association-list cache lemmas -/

theorem lookupCache_insert_self (c : Cache) (i : ℕ) (l : List ComposedGlyphImage) :
    lookupCache (insertCache c i l) i = some l := by
  induction c with
  | nil => simp [insertCache, lookupCache]
  | cons p ps ih =>
    by_cases h : p.1 = i
    · simp [insertCache, lookupCache, h]
    · simp [insertCache, lookupCache, h, ih]

theorem lookupCache_insert_ne (c : Cache) (i j : ℕ) (l : List ComposedGlyphImage)
    (h : j ≠ i) : lookupCache (insertCache c i l) j = lookupCache c j := by
  have hij : ¬ i = j := fun hh => h hh.symm
  induction c with
  | nil => simp [insertCache, lookupCache, hij]
  | cons p ps ih =>
    by_cases hp : p.1 = i
    · simp [insertCache, lookupCache, hp, hij]
    · by_cases hq : p.1 = j <;> simp [insertCache, lookupCache, hp, hq, h, ih]

theorem lookupCache_remove_self (c : Cache) (i : ℕ) :
    lookupCache (removeCache c i) i = none := by
  induction c with
  | nil => simp [removeCache, lookupCache]
  | cons p ps ih =>
    by_cases h : p.1 = i
    · simp [removeCache, h, ih]
    · simp [removeCache, lookupCache, h, ih]

theorem lookupCache_remove_ne (c : Cache) (i j : ℕ) (h : j ≠ i) :
    lookupCache (removeCache c i) j = lookupCache c j := by
  have hij : ¬ i = j := fun hh => h hh.symm
  induction c with
  | nil => simp [removeCache]
  | cons p ps ih =>
    by_cases hp : p.1 = i
    · subst hp
      simp [removeCache, lookupCache, hij, ih]
    · by_cases hq : p.1 = j <;> simp [removeCache, lookupCache, hp, hq, h, ih]

theorem containsCache_iff (c : Cache) (i : ℕ) :
    containsCache c i = true ↔ ∃ l, lookupCache c i = some l := by
  simp [containsCache, Option.isSome_iff_exists]

/-! ## Layout lemmas -/

/-- Changing only the anchor offsets shifts every laid-out glyph uniformly. -/
theorem layoutLine_shift (ax ay ax' ay' padding vOffset : ℚ)
    (line : OutlinedGlyphLine) :
    layoutLine ax' ay' padding vOffset line
      = (layoutLine ax ay padding vOffset line).map fun g =>
          { g with offset_x := g.offset_x + (ax' - ax)
                   offset_y := g.offset_y + (ay' - ay) } := by
  simp only [layoutLine, List.map_map]
  refine List.map_congr_left fun g _ => ?_
  simp only [Function.comp_apply, GlyphImage.mk.injEq, and_true]
  exact ⟨by ring, by ring⟩

theorem layoutGo_shift (m : Metrics) (justify : JustifyOutlinedText)
    (lineCount : ℕ) (textWidth ax ay ax' ay' : ℚ) :
    ∀ (lines : List OutlinedGlyphLine) (i : ℕ),
      layoutGo m justify lineCount textWidth ax' ay' i lines
        = (layoutGo m justify lineCount textWidth ax ay i lines).map fun g =>
            { g with offset_x := g.offset_x + (ax' - ax)
                     offset_y := g.offset_y + (ay' - ay) } := by
  intro lines
  induction lines with
  | nil => intro i; simp [layoutGo]
  | cons line rest ih =>
    intro i
    simp only [layoutGo, List.map_append, ih (i + 1), layoutLine_shift ax ay ax' ay']

/-! ## Demo font environments used by concrete evaluations -/

/-- A 1×1 alpha-255 bitmap with bearings (0, 1): the fill bitmap of the demo
glyph with id 1 (advance 2). -/
def bmpA : SwashImage := ⟨⟨0, 1, 1, 1⟩, [255]⟩

/-- A 1×1 alpha-200 bitmap with bearings (0, 1): the fill bitmap of the demo
glyph with id 2 (advance 3). -/
def bmpB : SwashImage := ⟨⟨0, 1, 1, 1⟩, [200]⟩

/-- The demo rasterizer: glyph 1 ↦ `bmpA`, glyph 2 ↦ `bmpB`, anything else
fails (`Render::render` returns `None`). -/
def demoRender : ℚ → ℕ → Option SwashImage := fun _ id =>
  if id = 1 then some bmpA else if id = 2 then some bmpB else none

/-- Demo metrics: ascent 1, descent 0, leading 0 at every size. -/
def demoMetrics : ℚ → Metrics := fun _ => ⟨1, 0, 0⟩

/-- A single-section text with one `A`, white fill, no outline, size 2. -/
def textA : OutlinedText :=
  ⟨[⟨"A", ⟨255, 255, 255, 255⟩, OutlineStyle.none⟩], ⟨0, 2⟩, .left⟩

/-- Environment shaping `textA` into one cluster holding the single glyph 1. -/
def envA : FontEnv :=
  { metrics := demoMetrics
    shape := fun _ _ => [⟨0, false, [⟨1, 2⟩]⟩]
    render := demoRender
    renderStroke := fun _ _ _ => none }

/-- Environment whose shaped stream contains glyph 1 (rasterizes fine)
followed by glyph 9 (the rasterizer returns `None` for it). -/
def envFailingGlyph : FontEnv :=
  { metrics := demoMetrics
    shape := fun _ _ => [⟨0, false, [⟨1, 2⟩, ⟨9, 2⟩]⟩]
    render := demoRender
    renderStroke := fun _ _ _ => none }

/-- A world containing a single changed entity whose font resolves to
`envFailingGlyph`. -/
def worldFailingGlyph : World :=
  { fonts := fun _ => some envFailingGlyph
    entities := [⟨0, textA, (0, 0), (0, 0, 0), true, false⟩]
    removed := []
    scaleFactorChanged := false
    scaleFactor := 1
    images := ⟨0, []⟩
    cache := [] }

/-! ## Claim C1 -/

/-- C1 (the code contradicts the claim): when the rasterizer cannot produce a
bitmap for one glyph (`Render::render` returns `None`), `glyph_to_bitmap`'s
`.unwrap()` panics, aborting the whole recompute (modelled as `none`) instead
of skipping that glyph: with the failing glyph 9 in the stream the recompute
for the entity produces nothing at all — including the sibling glyph 1, which
on its own lays out fine — and the whole `create_missing_text` run aborts. -/
theorem claim_C1 :
    create_glyph_images envFailingGlyph textA (0, 0) 1 = none
      ∧ (create_glyph_images envA textA (0, 0) 1).map List.length = some 1
      ∧ (create_missing_text worldFailingGlyph).isSome = false := by
  refine ⟨?_, ?_, ?_⟩ <;>
    norm_num [create_glyph_images, shapeLines, processClusters, processGlyphs,
      ShapeState.push, bitmap_to_image, layoutLines, layoutGo, layoutLine,
      justifyPadding, textWidthOf, textHeightOf, line_height, envFailingGlyph,
      envA, textA, demoRender, demoMetrics, bmpA, defaultSection,
      create_missing_text, cmtLoop, cmtProcessEntity, worldFailingGlyph]

/-- Changing only the anchor shifts every laid-out glyph by the difference of
the anchor offsets, `((a.x - b.x)·text_width, (a.y - b.y)·text_height)`. -/
theorem layoutLines_anchor_shift (m : Metrics) (justify : JustifyOutlinedText)
    (a b : ℚ × ℚ) (lines : List OutlinedGlyphLine) :
    layoutLines m justify b lines
      = (layoutLines m justify a lines).map fun g =>
          { g with
            offset_x := g.offset_x + (a.1 - b.1) * textWidthOf lines
            offset_y := g.offset_y + (a.2 - b.2) * textHeightOf m lines } := by
  simp only [layoutLines]
  rw [layoutGo_shift m justify lines.length (textWidthOf lines)
    (-a.1 * textWidthOf lines - textWidthOf lines / 2)
    (-a.2 * textHeightOf m lines - textHeightOf m lines / 2)
    (-b.1 * textWidthOf lines - textWidthOf lines / 2)
    (-b.2 * textHeightOf m lines - textHeightOf m lines / 2) lines 0]
  refine List.map_congr_left fun g _ => ?_
  simp only [GlyphImage.mk.injEq, and_true]
  exact ⟨by ring, by ring⟩

/-- A 1×1 white RGBA image: `bmpA` colored with the white fill of `textA`. -/
def imgA : Image := ⟨1, 1, [⟨255, 255, 255, 255⟩]⟩

/-! ## Claim C2 -/

/-- C2 (counterexample to the claim as stated): for `textA` shaped by `envA`
(one glyph, text box 2 × 1), moving the anchor from (-1,-1) to (1,1) moves
the glyph's x offset from 1 to -3, a shift of -4 = -2·text_width — not
-text_width = -2 as claimed. -/
theorem claim_C2_cx :
    create_glyph_images envA textA (-1, -1) 1 = some [⟨1, 1/2, 0, imgA⟩]
      ∧ create_glyph_images envA textA (1, 1) 1 = some [⟨-3, -3/2, 0, imgA⟩]
      ∧ shapeLines envA textA 1 = some [⟨[⟨0, 0, 0, imgA⟩], 2⟩]
      ∧ textWidthOf [⟨[⟨0, 0, 0, imgA⟩], 2⟩] = 2
      ∧ textHeightOf (envA.metrics (textA.font_style.size / 1))
          [⟨[⟨0, 0, 0, imgA⟩], 2⟩] = 1
      ∧ ((-3 : ℚ) - 1 = -4) ∧ ((-4 : ℚ) ≠ -2) := by
  refine ⟨?_, ?_, ?_, ?_, ?_, ?_, ?_⟩ <;>
    norm_num [create_glyph_images, shapeLines, processClusters, processGlyphs,
      ShapeState.push, bitmap_to_image, layoutLines, layoutGo, layoutLine,
      justifyPadding, textWidthOf, textHeightOf, line_height, envA, textA,
      demoRender, demoMetrics, bmpA, imgA, defaultSection]

/-- C2 (amended): with everything else fixed, changing the anchor vector from
(-1,-1) to (1,1) shifts every glyph's final offset by exactly
`(-2·text_width, -2·text_height)` (not `(-text_width, -text_height)`): the
anchor offset is `-anchor·dim - dim/2`, so a change of 2 in an anchor
component changes the offset by twice the box dimension. -/
theorem claim_C2 (env : FontEnv) (text : OutlinedText) (sf : ℚ)
    (lines : List OutlinedGlyphLine) (out₁ out₂ : List GlyphImage)
    (hl : shapeLines env text sf = some lines)
    (h1 : create_glyph_images env text (-1, -1) sf = some out₁)
    (h2 : create_glyph_images env text (1, 1) sf = some out₂) :
    out₂ = out₁.map fun g =>
      { g with
        offset_x := g.offset_x - 2 * textWidthOf lines
        offset_y := g.offset_y
          - 2 * textHeightOf (env.metrics (text.font_style.size / sf)) lines } := by
  unfold create_glyph_images at h1 h2
  by_cases he : text.sections.isEmpty = true
  · rw [if_pos he] at h1 h2
    cases h1; cases h2; simp
  · rw [if_neg he, hl] at h1 h2
    cases h1; cases h2
    rw [layoutLines_anchor_shift (env.metrics (text.font_style.size / sf))
      text.justify (-1, -1) (1, 1) lines]
    refine List.map_congr_left fun g _ => ?_
    simp only [GlyphImage.mk.injEq, and_true]
    exact ⟨by ring, by ring⟩

/-- Witness for C2 at `envA`/`textA`. -/
theorem claim_C2_witness :
    [⟨-3, -3/2, 0, imgA⟩]
      = ([⟨1, 1/2, 0, imgA⟩] : List GlyphImage).map fun g =>
          { g with
            offset_x := g.offset_x - 2 * textWidthOf [⟨[⟨0, 0, 0, imgA⟩], 2⟩]
            offset_y := g.offset_y
              - 2 * textHeightOf (envA.metrics (textA.font_style.size / 1))
                  [⟨[⟨0, 0, 0, imgA⟩], 2⟩] } :=
  claim_C2 envA textA 1 [⟨[⟨0, 0, 0, imgA⟩], 2⟩]
    [⟨1, 1/2, 0, imgA⟩] [⟨-3, -3/2, 0, imgA⟩]
    (by norm_num [shapeLines, processClusters, processGlyphs, ShapeState.push,
      bitmap_to_image, envA, textA, demoRender, demoMetrics, bmpA, imgA, defaultSection])
    (by norm_num [create_glyph_images, shapeLines, processClusters, processGlyphs,
      ShapeState.push, bitmap_to_image, layoutLines, layoutGo, layoutLine,
      justifyPadding, textWidthOf, textHeightOf, line_height, envA, textA,
      demoRender, demoMetrics, bmpA, imgA, defaultSection])
    (by norm_num [create_glyph_images, shapeLines, processClusters, processGlyphs,
      ShapeState.push, bitmap_to_image, layoutLines, layoutGo, layoutLine,
      justifyPadding, textWidthOf, textHeightOf, line_height, envA, textA,
      demoRender, demoMetrics, bmpA, imgA, defaultSection])

/-! ## Claim C4 -/

theorem foldl_max_choice (l : List ℚ) : ∀ a : ℚ, l.foldl max a = a ∨ l.foldl max a ∈ l := by
  induction l with
  | nil => intro a; exact Or.inl rfl
  | cons b t ih =>
    intro a
    rw [List.foldl_cons]
    rcases ih (max a b) with h | h
    · rcases max_choice a b with hm | hm
      · exact Or.inl (by rw [h, hm])
      · exact Or.inr (by rw [h, hm]; exact List.mem_cons_self b t)
    · exact Or.inr (List.mem_cons_of_mem b h)

theorem le_foldl_max (l : List ℚ) :
    ∀ a : ℚ, a ≤ l.foldl max a ∧ ∀ w ∈ l, w ≤ l.foldl max a := by
  induction l with
  | nil => intro a; exact ⟨le_refl a, by simp⟩
  | cons b t ih =>
    intro a
    obtain ⟨h1, h2⟩ := ih (max a b)
    rw [List.foldl_cons]
    refine ⟨le_trans (le_max_left a b) h1, ?_⟩
    intro w hw
    rcases List.mem_cons.mp hw with rfl | hw
    · exact le_trans (le_max_right a w) h1
    · exact h2 w hw

/-- Modelled from the claim's wording (the spec side of C4's stacking
formula): line `i` (0-based, in shaping order) receives the anchor offset,
its justification padding, and the vertical offset
`(line_count - 1 - i) * line_height`. -/
def specLineStack (m : Metrics) (justify : JustifyOutlinedText)
    (lineCount : ℕ) (textWidth ax ay : ℚ) :
    ℕ → List OutlinedGlyphLine → List GlyphImage
  | _, [] => []
  | i, line :: rest =>
    (line.glyphs.map fun g =>
      { g with
        offset_x := g.offset_x + ax + justifyPadding justify textWidth line.width
        offset_y := g.offset_y + ay + ((lineCount - 1 - i : ℕ) : ℚ) * line_height m })
      ++ specLineStack m justify lineCount textWidth ax ay (i + 1) rest

theorem layoutGo_eq_specLineStack (m : Metrics) (justify : JustifyOutlinedText)
    (lineCount : ℕ) (textWidth ax ay : ℚ) :
    ∀ (lines : List OutlinedGlyphLine) (i : ℕ),
      layoutGo m justify lineCount textWidth ax ay i lines
        = specLineStack m justify lineCount textWidth ax ay i lines := by
  intro lines
  induction lines with
  | nil => intro i; rfl
  | cons line rest ih =>
    intro i
    rw [layoutGo, specLineStack, ih (i + 1), Nat.sub_right_comm]
    rfl

/-- C4: the layout stage computes `line_height = ascent + descent + leading`;
`text_width` is the maximum of the line widths (the source folds `f32::max`
from 0, which is the maximum whenever the widths are nonnegative — they are,
for nonnegative advances); `text_height = ascent + descent +
(line_count - 1) * line_height`; and each glyph of line `i` receives the
vertical offset `(line_count - 1 - i) * line_height`, which is antitone in
`i`, so the first-shaped line sits highest. -/
theorem claim_C4 :
    (∀ m : Metrics, line_height m = m.ascent + m.descent + m.leading)
    ∧ (∀ lines : List OutlinedGlyphLine, lines ≠ [] →
        (∀ l ∈ lines, 0 ≤ l.width) →
        textWidthOf lines ∈ lines.map (·.width)
          ∧ ∀ w ∈ lines.map (·.width), w ≤ textWidthOf lines)
    ∧ (∀ (m : Metrics) (lines : List OutlinedGlyphLine),
        textHeightOf m lines
          = m.ascent + m.descent + ((lines.length - 1 : ℕ) : ℚ) * line_height m)
    ∧ (∀ (m : Metrics) (justify : JustifyOutlinedText) (anchor : ℚ × ℚ)
        (lines : List OutlinedGlyphLine),
        layoutLines m justify anchor lines
          = specLineStack m justify lines.length (textWidthOf lines)
              (-anchor.1 * textWidthOf lines - textWidthOf lines / 2)
              (-anchor.2 * textHeightOf m lines - textHeightOf m lines / 2)
              0 lines)
    ∧ (∀ (m : Metrics) (n i j : ℕ), 0 ≤ line_height m → i ≤ j →
        ((n - 1 - j : ℕ) : ℚ) * line_height m
          ≤ ((n - 1 - i : ℕ) : ℚ) * line_height m) := by
  refine ⟨fun m => by rw [line_height]; ring, ?_, ?_, ?_, ?_⟩
  · intro lines hne hnn
    have hle := le_foldl_max (lines.map (·.width)) 0
    constructor
    · rcases foldl_max_choice (lines.map (·.width)) 0 with h | h
      · cases lines with
        | nil => exact absurd rfl hne
        | cons l rest =>
          have hw0 : l.width ≤ 0 := by
            have := hle.2 l.width (by simp)
            rwa [show ((l :: rest).map (·.width)).foldl max 0 = 0 from h] at this
          have hw0' : l.width = 0 := le_antisymm hw0 (hnn l (List.mem_cons_self l rest))
          rw [textWidthOf, h, ← hw0']
          simp
      · rwa [textWidthOf]
    · intro w hw
      rw [textWidthOf]
      exact hle.2 w hw
  · intro m lines
    rw [textHeightOf]; ring
  · intro m justify anchor lines
    rw [layoutLines, layoutGo_eq_specLineStack]
  · intro m n i j hlh hij
    have hsub : (n - 1 - j : ℕ) ≤ (n - 1 - i : ℕ) := Nat.sub_le_sub_left hij (n - 1)
    exact mul_le_mul_of_nonneg_right (by exact_mod_cast hsub) hlh

/-- Witness for C4's hypothesis-bearing clauses, at a concrete two-line
layout (widths 4 and 3) and concrete metrics. -/
theorem claim_C4_witness :
    (textWidthOf [⟨[], 4⟩, ⟨[], 3⟩]
        ∈ ([⟨[], 4⟩, ⟨[], 3⟩] : List OutlinedGlyphLine).map (·.width)
      ∧ ∀ w ∈ ([⟨[], 4⟩, ⟨[], 3⟩] : List OutlinedGlyphLine).map (·.width),
          w ≤ textWidthOf [⟨[], 4⟩, ⟨[], 3⟩])
    ∧ ((2 - 1 - 1 : ℕ) : ℚ) * line_height ⟨1, 0, 0⟩
        ≤ ((2 - 1 - 0 : ℕ) : ℚ) * line_height ⟨1, 0, 0⟩ :=
  ⟨claim_C4.2.1 [⟨[], 4⟩, ⟨[], 3⟩] (by simp) (by norm_num),
    claim_C4.2.2.2.2 ⟨1, 0, 0⟩ 2 0 1 (by norm_num [line_height]) (by norm_num)⟩

/-! ## Claim C6 -/

/-- A 1×1 white-tinted RGBA image with alpha 200: `bmpB` colored with the
white fill. -/
def imgB : Image := ⟨1, 1, [⟨255, 255, 255, 200⟩]⟩

/-- The text `"AA\nB"`: a single white section, size 2, with selectable
justification. -/
def textAAnB (j : JustifyOutlinedText) : OutlinedText :=
  ⟨[⟨"AA\nB", ⟨255, 255, 255, 255⟩, OutlineStyle.none⟩], ⟨0, 2⟩, j⟩

/-- Environment shaping `"AA\nB"` into the cluster stream A, A, newline, B
(glyph 1 = `A`, advance 2; glyph 2 = `B`, advance 3; the newline cluster is a
pure boundary marker). -/
def envAAnB : FontEnv :=
  { metrics := demoMetrics
    shape := fun _ _ =>
      [⟨0, false, [⟨1, 2⟩]⟩, ⟨0, false, [⟨1, 2⟩]⟩, ⟨0, true, []⟩, ⟨0, false, [⟨2, 3⟩]⟩]
    render := demoRender
    renderStroke := fun _ _ _ => none }

/-- C6: justification paddings are Left ↦ 0, Center ↦ `(text_width - w)/2`,
Right ↦ `text_width - w`; and for `"AA\nB"` (line widths 4 and 3) under
Center the shorter line's glyph lands at x = -3/2, exactly
`(width "AA" - width "B")/2 = 1/2` to the right of its Left-justified
position x = -2, while the wider line's glyphs coincide in both runs. -/
theorem claim_C6 :
    (∀ W w : ℚ, justifyPadding .left W w = 0
      ∧ justifyPadding .center W w = (W - w) / 2
      ∧ justifyPadding .right W w = W - w)
    ∧ shapeLines envAAnB (textAAnB .center) 1
        = some [⟨[⟨0, 0, 0, imgA⟩, ⟨2, 0, 0, imgA⟩], 4⟩, ⟨[⟨0, 0, 0, imgB⟩], 3⟩]
    ∧ create_glyph_images envAAnB (textAAnB .center) (0, 0) 1
        = some [⟨-2, 0, 0, imgA⟩, ⟨0, 0, 0, imgA⟩, ⟨-3/2, -1, 0, imgB⟩]
    ∧ create_glyph_images envAAnB (textAAnB .left) (0, 0) 1
        = some [⟨-2, 0, 0, imgA⟩, ⟨0, 0, 0, imgA⟩, ⟨-2, -1, 0, imgB⟩]
    ∧ (-3/2 : ℚ) = -2 + (4 - 3) / 2 := by
  refine ⟨fun W w => ⟨rfl, rfl, rfl⟩, ?_, ?_, ?_, by norm_num⟩ <;>
    norm_num [create_glyph_images, shapeLines, processClusters, processGlyphs,
      ShapeState.push, bitmap_to_image, layoutLines, layoutGo, layoutLine,
      justifyPadding, textWidthOf, textHeightOf, line_height, envAAnB, textAAnB,
      demoRender, demoMetrics, bmpA, bmpB, imgA, imgB, defaultSection]

/-! ## Claim C7: no outline style means no outline layer -/

/-- All glyph bitmaps accumulated so far sit on the fill layer (z = 0). -/
def stateAllZ (st : ShapeState) : Prop :=
  (∀ line ∈ st.lines, ∀ g ∈ line.glyphs, g.offset_z = 0)
    ∧ ∀ g ∈ st.currentLine.glyphs, g.offset_z = 0

theorem stateAllZ_push (st : ShapeState) (g : GlyphImage)
    (hz : stateAllZ st) (hg : g.offset_z = 0) : stateAllZ (st.push g) := by
  obtain ⟨h1, h2⟩ := hz
  refine ⟨h1, ?_⟩
  intro g' hg'
  rcases List.mem_append.mp hg' with h | h
  · exact h2 g' h
  · rw [List.mem_singleton.mp h]; exact hg

theorem stateAllZ_x (st : ShapeState) (q : ℚ) (hz : stateAllZ st) :
    stateAllZ { st with x := q } := hz

theorem processGlyphs_none_allZ (env : FontEnv) (size descent sf : ℚ) (color : Rgba) :
    ∀ (gs : List Glyph) (st st' : ShapeState),
      processGlyphs env size descent sf color OutlineStyle.none st gs = some st' →
      stateAllZ st → stateAllZ st' := by
  intro gs
  induction gs with
  | nil =>
    intro st st' h hz
    rw [processGlyphs] at h
    cases h
    exact hz
  | cons glyph rest ih =>
    intro st st' h hz
    rw [processGlyphs] at h
    cases hr : env.render size glyph.id with
    | none => rw [hr] at h; exact absurd h (by simp)
    | some bitmap =>
      rw [hr] at h
      simp only at h
      split at h
      · exact ih _ _ h (stateAllZ_x _ _ (stateAllZ_push _ _ hz rfl))
      · exact ih _ _ h (stateAllZ_x _ _ hz)

theorem getD_outline_none :
    ∀ (sections : List OutlinedTextSection),
      (∀ s ∈ sections, s.outline = OutlineStyle.none) →
      ∀ i, (sections.getD i defaultSection).outline = OutlineStyle.none := by
  intro sections
  induction sections with
  | nil => intro _ i; cases i <;> rfl
  | cons s t ih =>
    intro h i
    cases i with
    | zero => exact h s (List.mem_cons_self s t)
    | succ n =>
      rw [List.getD_cons_succ]
      exact ih (fun s' hs => h s' (List.mem_cons_of_mem s hs)) n

theorem processClusters_none_allZ (env : FontEnv) (size descent sf : ℚ)
    (sections : List OutlinedTextSection)
    (hsec : ∀ s ∈ sections, s.outline = OutlineStyle.none) :
    ∀ (cs : List GlyphCluster) (st st' : ShapeState),
      processClusters env size descent sf sections st cs = some st' →
      stateAllZ st → stateAllZ st' := by
  intro cs
  induction cs with
  | nil =>
    intro st st' h hz
    rw [processClusters] at h
    cases h
    exact hz
  | cons c rest ih =>
    intro st st' h hz
    rw [processClusters] at h
    set st1 := if c.isNewline = true then
        ({ lines := st.lines ++ [⟨st.currentLine.glyphs, st.x⟩]
           currentLine := ⟨[], 0⟩, x := 0 } : ShapeState)
      else st with hst1
    have hz1 : stateAllZ st1 := by
      rw [hst1]
      split
      · refine ⟨?_, by simp⟩
        intro line hl
        rcases List.mem_append.mp hl with hmem | hmem
        · exact hz.1 line hmem
        · rw [List.mem_singleton.mp hmem]; exact hz.2
      · exact hz
    cases hp : processGlyphs env size descent sf
        (sections.getD c.data defaultSection).color
        (sections.getD c.data defaultSection).outline st1 c.glyphs with
    | none => rw [hp] at h; exact absurd h (by simp)
    | some st2 =>
      rw [hp] at h
      rw [getD_outline_none sections hsec c.data] at hp
      exact ih _ _ h (processGlyphs_none_allZ env size descent sf _ _ _ _ hp hz1)

theorem shapeLines_none_allZ (env : FontEnv) (text : OutlinedText) (sf : ℚ)
    (hsec : ∀ s ∈ text.sections, s.outline = OutlineStyle.none)
    (lines : List OutlinedGlyphLine) (h : shapeLines env text sf = some lines) :
    ∀ line ∈ lines, ∀ g ∈ line.glyphs, g.offset_z = 0 := by
  rw [shapeLines] at h
  cases hp : processClusters env (text.font_style.size / sf)
      (env.metrics (text.font_style.size / sf)).descent sf text.sections
      ⟨[], ⟨[], 0⟩, 0⟩ (env.shape text.sections (text.font_style.size / sf)) with
  | none => rw [hp] at h; exact absurd h (by simp)
  | some st =>
    rw [hp] at h
    cases h
    have hz := processClusters_none_allZ env _ _ _ text.sections hsec _ _ _ hp
      ⟨by simp, by simp⟩
    intro line hl
    rcases List.mem_append.mp hl with hmem | hmem
    · exact hz.1 line hmem
    · rw [List.mem_singleton.mp hmem]; exact hz.2

theorem layoutGo_allZ (m : Metrics) (justify : JustifyOutlinedText)
    (n : ℕ) (W ax ay : ℚ) :
    ∀ (lines : List OutlinedGlyphLine) (i : ℕ),
      (∀ line ∈ lines, ∀ g ∈ line.glyphs, g.offset_z = 0) →
      ∀ g ∈ layoutGo m justify n W ax ay i lines, g.offset_z = 0 := by
  intro lines
  induction lines with
  | nil => intro i _ g hg; simp [layoutGo] at hg
  | cons line rest ih =>
    intro i hz g hg
    rw [layoutGo] at hg
    rcases List.mem_append.mp hg with hmem | hmem
    · obtain ⟨g0, hg0, rfl⟩ := List.mem_map.mp hmem
      exact hz line (List.mem_cons_self line rest) g0 hg0
    · exact ih (i + 1) (fun l hl => hz l (List.mem_cons_of_mem line hl)) g hmem

theorem create_glyph_images_none_allZ (env : FontEnv) (text : OutlinedText)
    (anchor : ℚ × ℚ) (sf : ℚ)
    (hsec : ∀ s ∈ text.sections, s.outline = OutlineStyle.none)
    (out : List GlyphImage) (h : create_glyph_images env text anchor sf = some out) :
    ∀ g ∈ out, g.offset_z = 0 := by
  rw [create_glyph_images] at h
  split at h
  · cases h; simp
  · cases hl : shapeLines env text sf with
    | none => rw [hl] at h; exact absurd h (by simp)
    | some lines =>
      rw [hl] at h
      cases h
      exact layoutGo_allZ _ _ _ _ _ _ lines 0 (shapeLines_none_allZ env text sf hsec lines hl)

theorem composeGroups_allZ (images : Assets) (gis : List GlyphImage)
    (hz : ∀ g ∈ gis, g.offset_z = 0) :
    ∀ c ∈ (composeGroups images gis).1, c.z = 0 := by
  have h1 : gis.filter (fun g => g.offset_z == 0) = gis := by
    rw [List.filter_eq_self]
    intro a ha
    simp [hz a ha]
  have h2 : gis.filter (not ∘ fun g => g.offset_z == 0) = [] := by
    rw [List.filter_eq_nil_iff]
    intro a ha
    simp [hz a ha]
  unfold composeGroups
  rw [List.partition_eq_filter_filter, h1, h2]
  cases gis with
  | nil => simp
  | cons g0 rest =>
    intro c hc
    simp only [compose_glyph_images, Assets.add, List.mem_singleton] at hc
    rw [hc]
    exact hz g0 (List.mem_cons_self g0 rest)

/-! ### Step lemmas for the `create_missing_text` per-entity loop -/

theorem cmtProcessEntity_skip (fonts : ℕ → Option FontEnv) (fc : Bool) (sf : ℚ)
    (st : Cache × Assets) (e : WorldEntity)
    (hskip : (!fc && !e.textChanged && !e.anchorChanged && containsCache st.1 e.id) = true) :
    cmtProcessEntity fonts fc sf st e = some st := by
  rw [cmtProcessEntity, hskip]
  simp

theorem cmtProcessEntity_noFont (fonts : ℕ → Option FontEnv) (fc : Bool) (sf : ℚ)
    (st : Cache × Assets) (e : WorldEntity)
    (hf : fonts e.text.font_style.font = none) :
    cmtProcessEntity fonts fc sf st e = some st := by
  rw [cmtProcessEntity]
  split
  · rfl
  · rw [hf]

theorem cmtProcessEntity_recompute (fonts : ℕ → Option FontEnv) (fc : Bool) (sf : ℚ)
    (st : Cache × Assets) (e : WorldEntity) (env : FontEnv) (gis : List GlyphImage)
    (hskip : (!fc && !e.textChanged && !e.anchorChanged && containsCache st.1 e.id) = false)
    (hf : fonts e.text.font_style.font = some env)
    (hcg : create_glyph_images env e.text e.anchor sf = some gis) :
    cmtProcessEntity fonts fc sf st e
      = some (insertCache st.1 e.id (composeGroups st.2 gis).1, (composeGroups st.2 gis).2) := by
  rw [cmtProcessEntity, hskip]
  simp only [Bool.false_eq_true, if_false, hf, hcg]

theorem cmtProcessEntity_recompute_panic (fonts : ℕ → Option FontEnv) (fc : Bool)
    (sf : ℚ) (st : Cache × Assets) (e : WorldEntity) (env : FontEnv)
    (hskip : (!fc && !e.textChanged && !e.anchorChanged && containsCache st.1 e.id) = false)
    (hf : fonts e.text.font_style.font = some env)
    (hcg : create_glyph_images env e.text e.anchor sf = none) :
    cmtProcessEntity fonts fc sf st e = none := by
  rw [cmtProcessEntity, hskip]
  simp only [Bool.false_eq_true, if_false, hf, hcg]

theorem cmtLoop_singleton (fonts : ℕ → Option FontEnv) (fc : Bool) (sf : ℚ)
    (st : Cache × Assets) (e : WorldEntity) :
    cmtLoop fonts fc sf st [e] = cmtProcessEntity fonts fc sf st e := by
  rw [cmtLoop]
  cases h : cmtProcessEntity fonts fc sf st e with
  | none => rfl
  | some st' => simp only [cmtLoop]

/-- C7: for a styled text none of whose sections specifies an outline, every
glyph image the recompute produces sits at z = 0, and the atlas list stored in
the cache for that entity never contains an outline-group atlas (an entry with
z < 0). -/
theorem claim_C7 (world : World) (e : WorldEntity) (env : FontEnv) (w' : World)
    (hw : world.entities = [e])
    (hsec : ∀ s ∈ e.text.sections, s.outline = OutlineStyle.none)
    (hf : world.fonts e.text.font_style.font = some env)
    (hch : e.textChanged = true)
    (hrun : create_missing_text world = some w') :
    (∀ gis, create_glyph_images env e.text e.anchor world.scaleFactor = some gis →
        ∀ g ∈ gis, g.offset_z = 0)
    ∧ ∃ l, lookupCache w'.cache e.id = some l ∧ ∀ c ∈ l, ¬ c.z < 0 := by
  refine ⟨fun gis hgis =>
    create_glyph_images_none_allZ env e.text e.anchor world.scaleFactor hsec gis hgis, ?_⟩
  rw [create_missing_text, hw, cmtLoop_singleton] at hrun
  have hskip : (!world.scaleFactorChanged && !e.textChanged && !e.anchorChanged
      && containsCache (world.removed.foldl removeCache world.cache, world.images).1 e.id)
      = false := by
    rw [hch]; simp
  cases hcg : create_glyph_images env e.text e.anchor world.scaleFactor with
  | none =>
    rw [cmtProcessEntity_recompute_panic _ _ _ _ _ env hskip hf hcg] at hrun
    exact absurd hrun (by simp)
  | some gis =>
    rw [cmtProcessEntity_recompute _ _ _ _ _ env gis hskip hf hcg] at hrun
    simp only [Option.some.injEq] at hrun
    subst hrun
    refine ⟨(composeGroups world.images gis).1, lookupCache_insert_self _ _ _, ?_⟩
    intro c hc
    have hz := composeGroups_allZ world.images gis
      (create_glyph_images_none_allZ env e.text e.anchor world.scaleFactor hsec gis hcg)
      c hc
    rw [hz]
    exact lt_irrefl 0

/-- A 0×0 bitmap: the rasterizer's output for an ink-less glyph such as a
space. -/
def bmpEmpty : SwashImage := ⟨⟨0, 0, 0, 0⟩, []⟩

/-- Environment whose every rasterization yields the ink-less bitmap
(all-whitespace text). -/
def envSpace : FontEnv :=
  { metrics := demoMetrics
    shape := fun _ _ => [⟨0, false, [⟨3, 1⟩]⟩]
    render := fun _ _ => some bmpEmpty
    renderStroke := fun _ _ _ => some bmpEmpty }

/-- A single-section text consisting of one space, no outline. -/
def textSpace : OutlinedText :=
  ⟨[⟨" ", ⟨255, 255, 255, 255⟩, OutlineStyle.none⟩], ⟨0, 2⟩, .left⟩

/-- The entity carrying `textSpace`, freshly changed. -/
def entSpace : WorldEntity := ⟨0, textSpace, (0, 0), (0, 0, 0), true, false⟩

/-- A world containing only `entSpace`, with its font resolving to
`envSpace`. -/
def worldSpace : World :=
  { fonts := fun _ => some envSpace
    entities := [entSpace]
    removed := []
    scaleFactorChanged := false
    scaleFactor := 1
    images := ⟨0, []⟩
    cache := [] }

/-- The world after one recompute pass over `worldSpace`: the entity gets an
empty atlas list. -/
def worldSpaceAfter : World := { worldSpace with cache := [(0, [])] }

theorem create_missing_text_worldSpace :
    create_missing_text worldSpace = some worldSpaceAfter := by
  norm_num [create_missing_text, cmtLoop, cmtProcessEntity, composeGroups,
    create_glyph_images, shapeLines, processClusters, processGlyphs,
    ShapeState.push, bitmap_to_image, layoutLines, layoutGo, layoutLine,
    justifyPadding, textWidthOf, textHeightOf, line_height, worldSpace,
    worldSpaceAfter, entSpace, textSpace, envSpace, demoMetrics, bmpEmpty,
    defaultSection, containsCache, lookupCache, insertCache, List.partition_eq_filter_filter]

/-- Witness for C7 at the concrete `worldSpace`. -/
theorem claim_C7_witness :
    ∃ l, lookupCache worldSpaceAfter.cache 0 = some l ∧ ∀ c ∈ l, ¬ c.z < 0 :=
  (claim_C7 worldSpace entSpace envSpace worldSpaceAfter rfl (by decide) rfl rfl
    create_missing_text_worldSpace).2

/-! ## Claim C9: degenerate input yields an empty atlas list, not an error -/

/-- The rasterizer produces an ink-less (zero-width or zero-height) bitmap
for this glyph, for both the fill render and any stroke width. -/
def InklessGlyph (env : FontEnv) (size : ℚ) (g : Glyph) : Prop :=
  (∃ b, env.render size g.id = some b
      ∧ (b.placement.width = 0 ∨ b.placement.height = 0))
    ∧ ∀ sw, ∃ b, env.renderStroke size g.id sw = some b
        ∧ (b.placement.width = 0 ∨ b.placement.height = 0)

/-- No glyph bitmap has been accumulated on any line. -/
def stateEmptyGlyphs (st : ShapeState) : Prop :=
  (∀ line ∈ st.lines, line.glyphs = []) ∧ st.currentLine.glyphs = []

theorem processGlyphs_cons_inkless (env : FontEnv) (size descent sf : ℚ)
    (color : Rgba) (outline : OutlineStyle) (st : ShapeState) (glyph : Glyph)
    (rest : List Glyph) (hg : InklessGlyph env size glyph) :
    processGlyphs env size descent sf color outline st (glyph :: rest)
      = processGlyphs env size descent sf color outline
          { st with x := st.x + glyph.advance } rest := by
  obtain ⟨⟨b, hb, hbz⟩, hstroke⟩ := hg
  have hguardF : ¬((bitmap_to_image b color).width ≠ 0
      ∧ (bitmap_to_image b color).height ≠ 0) := by
    rcases hbz with h | h
    · intro hc; exact hc.1 (by simp [bitmap_to_image, h])
    · intro hc; exact hc.2 (by simp [bitmap_to_image, h])
  cases outline with
  | none =>
    rw [processGlyphs, hb]
    simp only [if_neg hguardF]
  | outline ow oc =>
    obtain ⟨ob, hob, hobz⟩ := hstroke (ow / sf)
    have hguardF2 : ¬((bitmap_to_image ob oc).width ≠ 0
        ∧ (bitmap_to_image ob oc).height ≠ 0) := by
      rcases hobz with h | h
      · intro hc; exact hc.1 (by simp [bitmap_to_image, h])
      · intro hc; exact hc.2 (by simp [bitmap_to_image, h])
    rw [processGlyphs]
    simp only [hob, hb, if_neg hguardF, if_neg hguardF2]

theorem processGlyphs_inkless (env : FontEnv) (size descent sf : ℚ) (color : Rgba)
    (outline : OutlineStyle) :
    ∀ (gs : List Glyph) (st : ShapeState),
      (∀ g ∈ gs, InklessGlyph env size g) →
      ∃ st', processGlyphs env size descent sf color outline st gs = some st'
        ∧ st'.lines = st.lines
        ∧ st'.currentLine.glyphs = st.currentLine.glyphs := by
  intro gs
  induction gs with
  | nil => intro st _; exact ⟨st, by rw [processGlyphs], rfl, rfl⟩
  | cons glyph rest ih =>
    intro st hink
    obtain ⟨st', hrun, h1, h2⟩ := ih { st with x := st.x + glyph.advance }
      (fun g hg => hink g (List.mem_cons_of_mem glyph hg))
    refine ⟨st', ?_, h1, h2⟩
    rw [processGlyphs_cons_inkless env size descent sf color outline st glyph rest
      (hink glyph (List.mem_cons_self glyph rest))]
    exact hrun

theorem processClusters_inkless (env : FontEnv) (size descent sf : ℚ)
    (sections : List OutlinedTextSection) :
    ∀ (cs : List GlyphCluster) (st : ShapeState),
      (∀ c ∈ cs, ∀ g ∈ c.glyphs, InklessGlyph env size g) →
      stateEmptyGlyphs st →
      ∃ st', processClusters env size descent sf sections st cs = some st'
        ∧ stateEmptyGlyphs st' := by
  intro cs
  induction cs with
  | nil => intro st _ hse; exact ⟨st, by rw [processClusters], hse⟩
  | cons c rest ih =>
    intro st hink hse
    rw [processClusters]
    set st1 := if c.isNewline = true then
        ({ lines := st.lines ++ [⟨st.currentLine.glyphs, st.x⟩]
           currentLine := ⟨[], 0⟩, x := 0 } : ShapeState)
      else st with hst1
    have hse1 : stateEmptyGlyphs st1 := by
      rw [hst1]
      split
      · refine ⟨?_, rfl⟩
        intro line hl
        rcases List.mem_append.mp hl with hmem | hmem
        · exact hse.1 line hmem
        · rw [List.mem_singleton.mp hmem, hse.2]
      · exact hse
    obtain ⟨st2, hrun2, hl2, hc2⟩ := processGlyphs_inkless env size descent sf
      (sections.getD c.data defaultSection).color
      (sections.getD c.data defaultSection).outline c.glyphs st1
      (hink c (List.mem_cons_self c rest))
    rw [hrun2]
    have hse2 : stateEmptyGlyphs st2 := ⟨hl2 ▸ hse1.1, hc2 ▸ hse1.2⟩
    exact ih st2 (fun c' hc' => hink c' (List.mem_cons_of_mem c hc')) hse2

theorem shapeLines_inkless (env : FontEnv) (text : OutlinedText) (sf : ℚ)
    (hink : ∀ c ∈ env.shape text.sections (text.font_style.size / sf),
      ∀ g ∈ c.glyphs, InklessGlyph env (text.font_style.size / sf) g) :
    ∃ lines, shapeLines env text sf = some lines
      ∧ ∀ line ∈ lines, line.glyphs = [] := by
  obtain ⟨st', hrun, hse⟩ := processClusters_inkless env (text.font_style.size / sf)
    (env.metrics (text.font_style.size / sf)).descent sf text.sections
    (env.shape text.sections (text.font_style.size / sf)) ⟨[], ⟨[], 0⟩, 0⟩
    hink ⟨by simp, rfl⟩
  refine ⟨st'.lines ++ [⟨st'.currentLine.glyphs, st'.x⟩], ?_, ?_⟩
  · rw [shapeLines, hrun]
  · intro line hl
    rcases List.mem_append.mp hl with hmem | hmem
    · exact hse.1 line hmem
    · rw [List.mem_singleton.mp hmem, hse.2]

theorem layoutGo_emptyGlyphs (m : Metrics) (justify : JustifyOutlinedText)
    (n : ℕ) (W ax ay : ℚ) :
    ∀ (lines : List OutlinedGlyphLine) (i : ℕ),
      (∀ line ∈ lines, line.glyphs = []) →
      layoutGo m justify n W ax ay i lines = [] := by
  intro lines
  induction lines with
  | nil => intro i _; rfl
  | cons line rest ih =>
    intro i hl
    rw [layoutGo, layoutLine, hl line (List.mem_cons_self line rest)]
    rw [List.map_nil, List.nil_append]
    exact ih (i + 1) (fun l h => hl l (List.mem_cons_of_mem line h))

theorem create_glyph_images_inkless (env : FontEnv) (text : OutlinedText)
    (anchor : ℚ × ℚ) (sf : ℚ)
    (hdeg : text.sections = []
      ∨ ∀ c ∈ env.shape text.sections (text.font_style.size / sf),
          ∀ g ∈ c.glyphs, InklessGlyph env (text.font_style.size / sf) g) :
    create_glyph_images env text anchor sf = some [] := by
  by_cases hemp : text.sections.isEmpty = true
  · rw [create_glyph_images, if_pos hemp]
  · rcases hdeg with hemp2 | hink
    · exact absurd (by rw [hemp2]; rfl) hemp
    · obtain ⟨lines, hrun, hempty⟩ := shapeLines_inkless env text sf hink
      simp only [create_glyph_images, if_neg hemp, hrun, layoutLines]
      rw [layoutGo_emptyGlyphs _ _ _ _ _ _ lines 0 hempty]

theorem composeGroups_nil (images : Assets) : composeGroups images [] = ([], images) := rfl

/-- C9: degenerate input — an empty section list, or text every glyph of
which rasterizes to an ink-less bitmap (all-whitespace text) — makes the
recompute produce zero glyph images and store an empty atlas list for the
entity; the recompute completes normally (`some`, no panic). -/
theorem claim_C9 (world : World) (e : WorldEntity) (env : FontEnv)
    (hw : world.entities = [e])
    (hf : world.fonts e.text.font_style.font = some env)
    (hch : e.textChanged = true)
    (hdeg : e.text.sections = []
      ∨ ∀ c ∈ env.shape e.text.sections (e.text.font_style.size / world.scaleFactor),
          ∀ g ∈ c.glyphs,
            InklessGlyph env (e.text.font_style.size / world.scaleFactor) g) :
    create_glyph_images env e.text e.anchor world.scaleFactor = some []
      ∧ ∃ w', create_missing_text world = some w'
          ∧ lookupCache w'.cache e.id = some [] := by
  have hcg := create_glyph_images_inkless env e.text e.anchor world.scaleFactor hdeg
  refine ⟨hcg, ?_⟩
  have hskip : (!world.scaleFactorChanged && !e.textChanged && !e.anchorChanged
      && containsCache (world.removed.foldl removeCache world.cache, world.images).1 e.id)
      = false := by
    rw [hch]; simp
  have hstep := cmtProcessEntity_recompute world.fonts world.scaleFactorChanged
    world.scaleFactor (world.removed.foldl removeCache world.cache, world.images)
    e env [] hskip hf hcg
  refine ⟨{ world with
      cache := insertCache (world.removed.foldl removeCache world.cache) e.id []
      images := world.images }, ?_, ?_⟩
  · rw [create_missing_text, hw, cmtLoop_singleton, hstep]
    rfl
  · exact lookupCache_insert_self _ _ _

/-- Witness for C9 at the all-whitespace `worldSpace`. -/
theorem claim_C9_witness :
    create_glyph_images envSpace entSpace.text entSpace.anchor worldSpace.scaleFactor
        = some []
      ∧ ∃ w', create_missing_text worldSpace = some w'
          ∧ lookupCache w'.cache entSpace.id = some [] :=
  claim_C9 worldSpace entSpace envSpace rfl rfl rfl
    (Or.inr fun _ _ _ _ =>
      ⟨⟨bmpEmpty, rfl, Or.inl rfl⟩, fun _ => ⟨bmpEmpty, rfl, Or.inl rfl⟩⟩)

/-! ## Claim C8: component removal deletes the entry; extraction emits nothing -/

theorem lookup_removeCache_of_none (c : Cache) (r i : ℕ)
    (h : lookupCache c i = none) : lookupCache (removeCache c r) i = none := by
  by_cases hr : i = r
  · rw [hr, lookupCache_remove_self]
  · rw [lookupCache_remove_ne c r i hr, h]

theorem lookup_removeCacheFold_none :
    ∀ (rs : List ℕ) (c : Cache) (i : ℕ),
      lookupCache c i = none → lookupCache (rs.foldl removeCache c) i = none := by
  intro rs
  induction rs with
  | nil => intro c i h; exact h
  | cons r rest ih =>
    intro c i h
    rw [List.foldl_cons]
    exact ih (removeCache c r) i (lookup_removeCache_of_none c r i h)

theorem lookup_removeCacheFold_mem :
    ∀ (rs : List ℕ) (c : Cache) (i : ℕ),
      i ∈ rs → lookupCache (rs.foldl removeCache c) i = none := by
  intro rs
  induction rs with
  | nil => intro c i h; exact absurd h (List.not_mem_nil i)
  | cons r rest ih =>
    intro c i h
    rw [List.foldl_cons]
    rcases List.mem_cons.mp h with rfl | hmem
    · exact lookup_removeCacheFold_none rest (removeCache c i) i
        (lookupCache_remove_self c i)
    · exact ih (removeCache c r) i hmem

theorem cmtProcessEntity_lookup_ne (fonts : ℕ → Option FontEnv) (fc : Bool)
    (sf : ℚ) (st : Cache × Assets) (e : WorldEntity) (st' : Cache × Assets) (i : ℕ)
    (h : cmtProcessEntity fonts fc sf st e = some st') (hne : e.id ≠ i) :
    lookupCache st'.1 i = lookupCache st.1 i := by
  cases hskip : (!fc && !e.textChanged && !e.anchorChanged && containsCache st.1 e.id) with
  | true => rw [cmtProcessEntity_skip fonts fc sf st e hskip] at h; cases h; rfl
  | false =>
    cases hf : fonts e.text.font_style.font with
    | none => rw [cmtProcessEntity_noFont fonts fc sf st e hf] at h; cases h; rfl
    | some env =>
      cases hcg : create_glyph_images env e.text e.anchor sf with
      | none =>
        rw [cmtProcessEntity_recompute_panic fonts fc sf st e env hskip hf hcg] at h
        cases h
      | some gis =>
        rw [cmtProcessEntity_recompute fonts fc sf st e env gis hskip hf hcg] at h
        simp only [Option.some.injEq] at h
        rw [← h]
        exact lookupCache_insert_ne st.1 e.id i (composeGroups st.2 gis).1
          (fun hh => hne hh.symm)

theorem cmtLoop_lookup_ne (fonts : ℕ → Option FontEnv) (fc : Bool) (sf : ℚ) (i : ℕ) :
    ∀ (es : List WorldEntity) (st st' : Cache × Assets),
      (∀ e' ∈ es, e'.id ≠ i) → cmtLoop fonts fc sf st es = some st' →
      lookupCache st'.1 i = lookupCache st.1 i := by
  intro es
  induction es with
  | nil => intro st st' _ h; rw [cmtLoop] at h; cases h; rfl
  | cons e rest ih =>
    intro st st' hne h
    rw [cmtLoop] at h
    cases hstep : cmtProcessEntity fonts fc sf st e with
    | none => rw [hstep] at h; exact absurd h (by simp)
    | some st1 =>
      rw [hstep] at h
      simp only at h
      rw [ih st1 st' (fun e' he' => hne e' (List.mem_cons_of_mem e he')) h]
      exact cmtProcessEntity_lookup_ne fonts fc sf st e st1 i hstep
        (hne e (List.mem_cons_self e rest))

theorem extract_of_lookup_none (cache : Cache) (i : ℕ)
    (h : lookupCache cache i = none) :
    ∀ (es : List WorldEntity), ∀ p ∈ extract_outlined_text es cache,
      p.original_entity ≠ i := by
  intro es
  induction es with
  | nil => intro p hp; simp [extract_outlined_text] at hp
  | cons e rest ih =>
    intro p hp
    rw [extract_outlined_text, List.map_cons, List.flatten_cons] at hp
    rcases List.mem_append.mp hp with hmem | hmem
    · cases hl : lookupCache cache e.id with
      | none => rw [hl] at hmem; simp at hmem
      | some gs =>
        rw [hl] at hmem
        obtain ⟨g, _, rfl⟩ := List.mem_map.mp hmem
        intro heq
        rw [show e.id = i from heq] at hl
        rw [h] at hl
        cases hl
    · exact ih p hmem

/-- C8: when an entity's styled-text component was removed (and the entity is
accordingly no longer in the text query), the recompute pass deletes its cache
entry, and extraction — over any query — emits zero primitives for that
entity, since it emits only for entities whose id is present in the cache. -/
theorem claim_C8 (world : World) (i : ℕ) (w' : World) (query : List WorldEntity)
    (hrem : i ∈ world.removed)
    (hent : ∀ e' ∈ world.entities, e'.id ≠ i)
    (hrun : create_missing_text world = some w') :
    lookupCache w'.cache i = none
      ∧ ∀ p ∈ extract_outlined_text query w'.cache, p.original_entity ≠ i := by
  rw [create_missing_text] at hrun
  cases hloop : cmtLoop world.fonts world.scaleFactorChanged world.scaleFactor
      (world.removed.foldl removeCache world.cache, world.images) world.entities with
  | none => rw [hloop] at hrun; exact absurd hrun (by simp)
  | some st' =>
    obtain ⟨c2, i2⟩ := st'
    rw [hloop] at hrun
    simp only [Option.some.injEq] at hrun
    subst hrun
    have h0 : lookupCache (world.removed.foldl removeCache world.cache) i = none :=
      lookup_removeCacheFold_mem world.removed world.cache i hrem
    have h1 : lookupCache c2 i = none := by
      rw [cmtLoop_lookup_ne world.fonts world.scaleFactorChanged world.scaleFactor i
        world.entities _ _ hent hloop]
      exact h0
    exact ⟨h1, extract_of_lookup_none c2 i h1 query⟩

/-- A world whose only content is a stale cache entry for the removed
entity 0. -/
def worldRemoved : World :=
  { fonts := fun _ => none
    entities := []
    removed := [0]
    scaleFactorChanged := false
    scaleFactor := 1
    images := ⟨0, []⟩
    cache := [(0, [⟨0, 0, 0, 7⟩])] }

/-- `worldRemoved` after the recompute pass: the entry is gone. -/
def worldRemovedAfter : World := { worldRemoved with cache := [] }

/-- Witness for C8 at `worldRemoved`, extracting over a query that still
mentions entity 0. -/
theorem claim_C8_witness :
    lookupCache worldRemovedAfter.cache 0 = none
      ∧ ∀ p ∈ extract_outlined_text [⟨0, textA, (0, 0), (0, 0, 0), false, false⟩]
          worldRemovedAfter.cache, p.original_entity ≠ (0 : ℕ) :=
  claim_C8 worldRemoved 0 worldRemovedAfter
    [⟨0, textA, (0, 0), (0, 0, 0), false, false⟩]
    (List.mem_singleton.mpr rfl)
    (fun e' he' => absurd he' (List.not_mem_nil e'))
    rfl

/-! ## Claim C3: cache reuse and scale-factor-forced recompute -/

theorem lookup_removeCacheFold_not_mem :
    ∀ (rs : List ℕ) (c : Cache) (i : ℕ),
      i ∉ rs → lookupCache (rs.foldl removeCache c) i = lookupCache c i := by
  intro rs
  induction rs with
  | nil => intro c i _; rfl
  | cons r rest ih =>
    intro c i h
    rw [List.foldl_cons, ih (removeCache c r) i (fun hm => h (List.mem_cons_of_mem r hm)),
      lookupCache_remove_ne c r i (fun hh => h (hh ▸ List.mem_cons_self r rest))]

theorem composeGroups_handles (images : Assets) (gis : List GlyphImage) :
    (∀ c ∈ (composeGroups images gis).1, images.next ≤ c.image)
      ∧ images.next ≤ (composeGroups images gis).2.next := by
  unfold composeGroups
  rw [List.partition_eq_filter_filter]
  cases h1 : gis.filter (fun g => g.offset_z == 0) with
  | nil =>
    cases h2 : gis.filter (not ∘ fun g => g.offset_z == 0) with
    | nil => simp
    | cons o0 orest => simp [compose_glyph_images, Assets.add]
  | cons g0 grest =>
    cases h2 : gis.filter (not ∘ fun g => g.offset_z == 0) with
    | nil => simp [compose_glyph_images, Assets.add]
    | cons o0 orest =>
      simp [compose_glyph_images, Assets.add]
      omega

theorem cmtProcessEntity_next_mono (fonts : ℕ → Option FontEnv) (fc : Bool)
    (sf : ℚ) (st : Cache × Assets) (e : WorldEntity) (st' : Cache × Assets)
    (h : cmtProcessEntity fonts fc sf st e = some st') :
    st.2.next ≤ st'.2.next := by
  cases hskip : (!fc && !e.textChanged && !e.anchorChanged && containsCache st.1 e.id) with
  | true => rw [cmtProcessEntity_skip fonts fc sf st e hskip] at h; cases h; exact le_refl _
  | false =>
    cases hf : fonts e.text.font_style.font with
    | none => rw [cmtProcessEntity_noFont fonts fc sf st e hf] at h; cases h; exact le_refl _
    | some env =>
      cases hcg : create_glyph_images env e.text e.anchor sf with
      | none =>
        rw [cmtProcessEntity_recompute_panic fonts fc sf st e env hskip hf hcg] at h
        cases h
      | some gis =>
        rw [cmtProcessEntity_recompute fonts fc sf st e env gis hskip hf hcg] at h
        simp only [Option.some.injEq] at h
        rw [← h]
        exact (composeGroups_handles st.2 gis).2

theorem cmtLoop_next_mono (fonts : ℕ → Option FontEnv) (fc : Bool) (sf : ℚ) :
    ∀ (es : List WorldEntity) (st st' : Cache × Assets),
      cmtLoop fonts fc sf st es = some st' → st.2.next ≤ st'.2.next := by
  intro es
  induction es with
  | nil => intro st st' h; rw [cmtLoop] at h; cases h; exact le_refl _
  | cons e rest ih =>
    intro st st' h
    rw [cmtLoop] at h
    cases hstep : cmtProcessEntity fonts fc sf st e with
    | none => rw [hstep] at h; exact absurd h (by simp)
    | some st1 =>
      rw [hstep] at h
      simp only at h
      exact le_trans (cmtProcessEntity_next_mono fonts fc sf st e st1 hstep) (ih st1 st' h)

theorem cmtLoop_invariant (fonts : ℕ → Option FontEnv) (fc : Bool) (sf : ℚ)
    (P : Cache × Assets → Prop) :
    ∀ (es : List WorldEntity) (st st' : Cache × Assets),
      (∀ e' ∈ es, ∀ s s', P s → cmtProcessEntity fonts fc sf s e' = some s' → P s') →
      cmtLoop fonts fc sf st es = some st' → P st → P st' := by
  intro es
  induction es with
  | nil => intro st st' _ h hP; rw [cmtLoop] at h; cases h; exact hP
  | cons e rest ih =>
    intro st st' hpres h hP
    rw [cmtLoop] at h
    cases hstep : cmtProcessEntity fonts fc sf st e with
    | none => rw [hstep] at h; exact absurd h (by simp)
    | some st1 =>
      rw [hstep] at h
      simp only at h
      exact ih st1 st' (fun e' he' => hpres e' (List.mem_cons_of_mem e he')) h
        (hpres e (List.mem_cons_self e rest) st st1 hP hstep)

theorem cmtLoop_append (fonts : ℕ → Option FontEnv) (fc : Bool) (sf : ℚ) :
    ∀ (l1 l2 : List WorldEntity) (st : Cache × Assets),
      cmtLoop fonts fc sf st (l1 ++ l2)
        = match cmtLoop fonts fc sf st l1 with
          | Option.none => none
          | some st1 => cmtLoop fonts fc sf st1 l2 := by
  intro l1
  induction l1 with
  | nil => intro l2 st; rw [List.nil_append, cmtLoop]
  | cons e rest ih =>
    intro l2 st
    rw [List.cons_append, cmtLoop, cmtLoop]
    cases hstep : cmtProcessEntity fonts fc sf st e with
    | none => rfl
    | some st1 => simp only [ih l2 st1]

/-- Unpacks a successful `create_missing_text` run into its loop result. -/
theorem create_missing_text_some (world : World) (w' : World)
    (hrun : create_missing_text world = some w') :
    ∃ st', cmtLoop world.fonts world.scaleFactorChanged world.scaleFactor
        (world.removed.foldl removeCache world.cache, world.images) world.entities
        = some st'
      ∧ w'.cache = st'.1 ∧ w'.images = st'.2 := by
  rw [create_missing_text] at hrun
  cases hloop : cmtLoop world.fonts world.scaleFactorChanged world.scaleFactor
      (world.removed.foldl removeCache world.cache, world.images) world.entities with
  | none => rw [hloop] at hrun; exact absurd hrun (by simp)
  | some st' =>
    obtain ⟨c2, i2⟩ := st'
    rw [hloop] at hrun
    simp only [Option.some.injEq] at hrun
    subst hrun
    exact ⟨(c2, i2), rfl, rfl, rfl⟩

/-- C3 (amended): in one recompute pass, (a) an entity's cache entry is
reused unchanged whenever no display-scale-factor change occurred this cycle,
its text and anchor are unchanged and an entry exists; (b) it is also left
unchanged — even under a scale-factor change or a text/anchor change — when
the entity's font is not resolvable; (c) a scale-factor change this cycle
forces recompute for every entity whose font resolves, regardless of
per-entity change state, and every atlas handle in the freshly stored entry
is allocated at or above the image allocator's previous high-water mark,
hence distinct from every previously allocated atlas handle. -/
theorem claim_C3 (world : World) (w' : World)
    (hrun : create_missing_text world = some w') :
    (∀ i : ℕ, world.scaleFactorChanged = false → i ∉ world.removed →
        containsCache world.cache i = true →
        (∀ e' ∈ world.entities, e'.id = i →
            e'.textChanged = false ∧ e'.anchorChanged = false) →
        lookupCache w'.cache i = lookupCache world.cache i)
      ∧ (∀ i : ℕ, i ∉ world.removed →
          (∀ e' ∈ world.entities, e'.id = i →
              world.fonts e'.text.font_style.font = none) →
          lookupCache w'.cache i = lookupCache world.cache i)
      ∧ (∀ e ∈ world.entities, ∀ env : FontEnv,
          world.scaleFactorChanged = true →
          (∀ e' ∈ world.entities, e'.id = e.id → e' = e) →
          world.fonts e.text.font_style.font = some env →
          ∃ l, lookupCache w'.cache e.id = some l
            ∧ ∀ c ∈ l, world.images.next ≤ c.image) := by
  obtain ⟨st', hloop, hc, _⟩ := create_missing_text_some world w' hrun
  refine ⟨?_, ?_, ?_⟩
  · intro i hfc hrem hcont hflags
    rw [hc]
    have hpres : ∀ e' ∈ world.entities, ∀ s s' : Cache × Assets,
        lookupCache s.1 i = lookupCache world.cache i →
        cmtProcessEntity world.fonts world.scaleFactorChanged world.scaleFactor s e'
          = some s' →
        lookupCache s'.1 i = lookupCache world.cache i := by
      intro e' he' s s' hP hstep
      by_cases hei : e'.id = i
      · obtain ⟨hf1, hf2⟩ := hflags e' he' hei
        have hskip : (!world.scaleFactorChanged && !e'.textChanged && !e'.anchorChanged
            && containsCache s.1 e'.id) = true := by
          rw [hfc, hf1, hf2, hei]
          simp only [Bool.not_false, Bool.true_and]
          rw [containsCache, hP, ← containsCache]
          exact hcont
        rw [cmtProcessEntity_skip _ _ _ s e' hskip] at hstep
        cases hstep
        exact hP
      · rw [cmtProcessEntity_lookup_ne _ _ _ s e' s' i hstep hei]
        exact hP
    exact cmtLoop_invariant world.fonts world.scaleFactorChanged world.scaleFactor
      (fun s => lookupCache s.1 i = lookupCache world.cache i)
      world.entities _ st' hpres hloop (lookup_removeCacheFold_not_mem _ _ _ hrem)
  · intro i hrem hfonts
    rw [hc]
    have hpres : ∀ e' ∈ world.entities, ∀ s s' : Cache × Assets,
        lookupCache s.1 i = lookupCache world.cache i →
        cmtProcessEntity world.fonts world.scaleFactorChanged world.scaleFactor s e'
          = some s' →
        lookupCache s'.1 i = lookupCache world.cache i := by
      intro e' he' s s' hP hstep
      by_cases hei : e'.id = i
      · rw [cmtProcessEntity_noFont _ _ _ s e' (hfonts e' he' hei)] at hstep
        cases hstep
        exact hP
      · rw [cmtProcessEntity_lookup_ne _ _ _ s e' s' i hstep hei]
        exact hP
    exact cmtLoop_invariant world.fonts world.scaleFactorChanged world.scaleFactor
      (fun s => lookupCache s.1 i = lookupCache world.cache i)
      world.entities _ st' hpres hloop (lookup_removeCacheFold_not_mem _ _ _ hrem)
  · intro e he env hfc huniq hf
    obtain ⟨pre, post, hsplit⟩ := List.append_of_mem he
    rw [hc]
    rw [hsplit, cmtLoop_append] at hloop
    cases hpre : cmtLoop world.fonts world.scaleFactorChanged world.scaleFactor
        (world.removed.foldl removeCache world.cache, world.images) pre with
    | none => rw [hpre] at hloop; exact absurd hloop (by simp)
    | some st1 =>
      rw [hpre] at hloop
      simp only at hloop
      rw [cmtLoop] at hloop
      cases hstep : cmtProcessEntity world.fonts world.scaleFactorChanged
          world.scaleFactor st1 e with
      | none => rw [hstep] at hloop; exact absurd hloop (by simp)
      | some st2 =>
        rw [hstep] at hloop
        simp only at hloop
        have hn1 : world.images.next ≤ st1.2.next :=
          cmtLoop_next_mono _ _ _ pre _ st1 hpre
        have hskip : (!world.scaleFactorChanged && !e.textChanged && !e.anchorChanged
            && containsCache st1.1 e.id) = false := by
          rw [hfc]; simp
        cases hcg : create_glyph_images env e.text e.anchor world.scaleFactor with
        | none =>
          rw [cmtProcessEntity_recompute_panic _ _ _ st1 e env hskip hf hcg] at hstep
          cases hstep
        | some gis =>
          rw [cmtProcessEntity_recompute _ _ _ st1 e env gis hskip hf hcg] at hstep
          simp only [Option.some.injEq] at hstep
          have hPst2 : (∃ l, lookupCache st2.1 e.id = some l
              ∧ ∀ c ∈ l, world.images.next ≤ c.image)
              ∧ world.images.next ≤ st2.2.next := by
            rw [← hstep]
            refine ⟨⟨(composeGroups st1.2 gis).1, lookupCache_insert_self _ _ _, ?_⟩, ?_⟩
            · intro c hcmem
              exact le_trans hn1 ((composeGroups_handles st1.2 gis).1 c hcmem)
            · exact le_trans hn1 (composeGroups_handles st1.2 gis).2
          have hpres : ∀ e' ∈ post, ∀ s s' : Cache × Assets,
              ((∃ l, lookupCache s.1 e.id = some l
                  ∧ ∀ c ∈ l, world.images.next ≤ c.image)
                ∧ world.images.next ≤ s.2.next) →
              cmtProcessEntity world.fonts world.scaleFactorChanged world.scaleFactor s e'
                = some s' →
              ((∃ l, lookupCache s'.1 e.id = some l
                  ∧ ∀ c ∈ l, world.images.next ≤ c.image)
                ∧ world.images.next ≤ s'.2.next) := by
            intro e' he' s s' hPs hstep'
            by_cases hei : e'.id = e.id
            · have he'mem : e' ∈ world.entities := by
                rw [hsplit]
                exact List.mem_append_right _ (List.mem_cons_of_mem e he')
              have heq : e' = e := huniq e' he'mem hei
              subst heq
              have hskip' : (!world.scaleFactorChanged && !e'.textChanged
                  && !e'.anchorChanged && containsCache s.1 e'.id) = false := by
                rw [hfc]; simp
              cases hcg' : create_glyph_images env e'.text e'.anchor world.scaleFactor with
              | none =>
                rw [cmtProcessEntity_recompute_panic _ _ _ s e' env hskip' hf hcg'] at hstep'
                cases hstep'
              | some gis' =>
                rw [cmtProcessEntity_recompute _ _ _ s e' env gis' hskip' hf hcg'] at hstep'
                simp only [Option.some.injEq] at hstep'
                rw [← hstep']
                refine ⟨⟨(composeGroups s.2 gis').1, lookupCache_insert_self _ _ _, ?_⟩, ?_⟩
                · intro c hcmem
                  exact le_trans hPs.2 ((composeGroups_handles s.2 gis').1 c hcmem)
                · exact le_trans hPs.2 (composeGroups_handles s.2 gis').2
            · refine ⟨?_, le_trans hPs.2
                (cmtProcessEntity_next_mono _ _ _ s e' s' hstep')⟩
              rw [cmtProcessEntity_lookup_ne _ _ _ s e' s' e.id hstep' hei]
              exact hPs.1
          exact (cmtLoop_invariant world.fonts world.scaleFactorChanged world.scaleFactor
            (fun s => (∃ l, lookupCache s.1 e.id = some l
                ∧ ∀ c ∈ l, world.images.next ≤ c.image)
              ∧ world.images.next ≤ s.2.next)
            post st2 st' hpres hloop hPst2).1

/-- An unchanged text entity with id 0. -/
def entStill : WorldEntity := ⟨0, textA, (0, 0), (0, 0, 0), false, false⟩

/-- A world where a scale-factor change occurred but the entity's font does
not resolve: the stale cache entry survives the pass untouched. -/
def worldStale : World :=
  { fonts := fun _ => none
    entities := [entStill]
    removed := []
    scaleFactorChanged := true
    scaleFactor := 1
    images := ⟨0, []⟩
    cache := [(0, [])] }

/-- C3 (counterexample to the claim as stated): in `worldStale` a
display-scale-factor change occurred this cycle, the entity's text and anchor
are unchanged and a cache entry exists — by the claim's "exactly when", the
entry must not be left unchanged — yet the pass leaves it unchanged, because
the entity's font is not resolvable. -/
theorem claim_C3_cx :
    (create_missing_text worldStale).map World.cache = some [(0, [])]
      ∧ worldStale.cache = [(0, [])]
      ∧ worldStale.scaleFactorChanged = true
      ∧ containsCache worldStale.cache 0 = true
      ∧ ∀ e' ∈ worldStale.entities,
          e'.textChanged = false ∧ e'.anchorChanged = false := by
  refine ⟨rfl, rfl, rfl, rfl, ?_⟩
  intro e' he'
  rw [show worldStale.entities = [entStill] from rfl] at he'
  rw [List.mem_singleton.mp he']
  exact ⟨rfl, rfl⟩

/-- A world where nothing changed and the entry exists: the skip path. -/
def worldSkip : World :=
  { fonts := fun _ => some envA
    entities := [entStill]
    removed := []
    scaleFactorChanged := false
    scaleFactor := 1
    images := ⟨0, []⟩
    cache := [(0, [])] }

/-- An unchanged all-whitespace entity with id 0. -/
def entSpaceStill : WorldEntity := ⟨0, textSpace, (0, 0), (0, 0, 0), false, false⟩

/-- A world where only the scale factor changed; the font resolves, so the
entity is recomputed even though it did not change. -/
def worldForce : World :=
  { fonts := fun _ => some envSpace
    entities := [entSpaceStill]
    removed := []
    scaleFactorChanged := true
    scaleFactor := 1
    images := ⟨5, []⟩
    cache := [(0, [⟨0, 0, 0, 3⟩])] }

/-- `worldForce` after the pass: the stale entry was overwritten by a fresh
recompute. -/
def worldForceAfter : World := { worldForce with cache := [(0, [])] }

theorem create_missing_text_worldForce :
    create_missing_text worldForce = some worldForceAfter := by
  norm_num [create_missing_text, cmtLoop, cmtProcessEntity, composeGroups,
    create_glyph_images, shapeLines, processClusters, processGlyphs,
    ShapeState.push, bitmap_to_image, layoutLines, layoutGo, layoutLine,
    justifyPadding, textWidthOf, textHeightOf, line_height, worldForce,
    worldForceAfter, entSpaceStill, textSpace, envSpace, demoMetrics, bmpEmpty,
    defaultSection, containsCache, lookupCache, insertCache, removeCache,
    List.partition_eq_filter_filter]

/-- Witness for C3: the skip path reuses the entry, the unresolvable-font
path leaves it unchanged, and the forced path stores an entry whose handles
sit at or above the allocator's previous high-water mark 5. -/
theorem claim_C3_witness :
    lookupCache worldSkip.cache 0 = lookupCache worldSkip.cache 0
      ∧ lookupCache worldStale.cache 0 = lookupCache worldStale.cache 0
      ∧ ∃ l, lookupCache worldForceAfter.cache entSpaceStill.id = some l
          ∧ ∀ c ∈ l, worldForce.images.next ≤ c.image :=
  ⟨(claim_C3 worldSkip worldSkip rfl).1 0 rfl (by simp [worldSkip]) rfl
      (by
        intro e' he' _
        rw [show worldSkip.entities = [entStill] from rfl] at he'
        rw [List.mem_singleton.mp he']
        exact ⟨rfl, rfl⟩),
    (claim_C3 worldStale worldStale rfl).2.1 0 (by simp [worldStale])
      (fun _ _ _ => rfl),
    (claim_C3 worldForce worldForceAfter create_missing_text_worldForce).2.2
      entSpaceStill (List.mem_singleton.mpr rfl) envSpace rfl
      (fun e' he' _ => List.mem_singleton.mp he') rfl⟩

/-! ## Claim C10: every compose-buffer write is in bounds -/

/-- Key rounding fact: if `0 ≤ t` and `t + n ≤ S` then
`round(t) + n ≤ ⌈S⌉` (as saturating naturals): rounding can exceed `t` by at
most 1/2, and an integer exceeding `⌈S⌉` would exceed `S + 1/2`. -/
theorem rustRound_add_le_ceil (t S : ℚ) (n : ℕ) (h0 : 0 ≤ t) (hts : t + n ≤ S) :
    (rustRound t).toNat + n ≤ ⌈S⌉.toNat := by
  rw [rustRound, if_pos h0]
  have ha : ((⌊t + 1/2⌋ : ℤ) : ℚ) ≤ t + 1/2 := Int.floor_le _
  have hb : (S : ℚ) ≤ ((⌈S⌉ : ℤ) : ℚ) := Int.le_ceil _
  have h1 : ⌊t + 1/2⌋ + (n : ℤ) ≤ ⌈S⌉ := by
    rw [← Int.lt_add_one_iff]
    have : ((⌊t + 1/2⌋ + (n : ℤ) : ℤ) : ℚ) < ((⌈S⌉ + 1 : ℤ) : ℚ) := by
      push_cast
      linarith
    exact_mod_cast this
  have h2 : (0 : ℤ) ≤ ⌊t + 1/2⌋ := Int.floor_nonneg.mpr (by linarith)
  omega

theorem bboxFold_init :
    ∀ (l : List GlyphImage) (b : BBox),
      (l.foldl bboxUnion b).x_min ≤ b.x_min ∧ b.x_max ≤ (l.foldl bboxUnion b).x_max
        ∧ (l.foldl bboxUnion b).y_min ≤ b.y_min
        ∧ b.y_max ≤ (l.foldl bboxUnion b).y_max := by
  intro l
  induction l with
  | nil => intro b; exact ⟨le_refl _, le_refl _, le_refl _, le_refl _⟩
  | cons g t ih =>
    intro b
    rw [List.foldl_cons]
    obtain ⟨h1, h2, h3, h4⟩ := ih (bboxUnion b g)
    exact ⟨le_trans h1 (min_le_left _ _), le_trans (le_max_left _ _) h2,
      le_trans h3 (min_le_left _ _), le_trans (le_max_left _ _) h4⟩

theorem bboxFold_mem :
    ∀ (l : List GlyphImage) (b : BBox) (g : GlyphImage), g ∈ l →
      (l.foldl bboxUnion b).x_min ≤ g.offset_x
        ∧ g.offset_x + (g.image.width : ℚ) ≤ (l.foldl bboxUnion b).x_max
        ∧ (l.foldl bboxUnion b).y_min ≤ g.offset_y
        ∧ g.offset_y + (g.image.height : ℚ) ≤ (l.foldl bboxUnion b).y_max := by
  intro l
  induction l with
  | nil => intro b g hg; exact absurd hg (List.not_mem_nil g)
  | cons g' t ih =>
    intro b g hg
    rw [List.foldl_cons]
    rcases List.mem_cons.mp hg with rfl | hmem
    · obtain ⟨h1, h2, h3, h4⟩ := bboxFold_init t (bboxUnion b g)
      exact ⟨le_trans h1 (min_le_right _ _), le_trans (le_max_right _ _) h2,
        le_trans h3 (min_le_right _ _), le_trans (le_max_right _ _) h4⟩
    · exact ih (bboxUnion b g') g hmem

theorem groupBBox_bounds (g0 : GlyphImage) (rest : List GlyphImage) :
    ∀ g ∈ g0 :: rest,
      (groupBBox g0 rest).x_min ≤ g.offset_x
        ∧ g.offset_x + (g.image.width : ℚ) ≤ (groupBBox g0 rest).x_max
        ∧ (groupBBox g0 rest).y_min ≤ g.offset_y
        ∧ g.offset_y + (g.image.height : ℚ) ≤ (groupBBox g0 rest).y_max := by
  intro g hg
  rcases List.mem_cons.mp hg with rfl | hmem
  · obtain ⟨h1, h2, h3, h4⟩ := bboxFold_init rest (glyphRect g)
    exact ⟨h1, h2, h3, h4⟩
  · exact bboxFold_mem rest (glyphRect g0) g hmem

/-- In-bounds facts for one member of a non-empty compose group, against the
ceiling-sized buffer. -/
theorem compose_bounds (g0 : GlyphImage) (rest : List GlyphImage)
    (g : GlyphImage) (hg : g ∈ g0 :: rest) :
    destX (groupBBox g0 rest).x_min g + g.image.width
        ≤ ⌈(groupBBox g0 rest).x_max - (groupBBox g0 rest).x_min⌉.toNat
      ∧ (rustRound (g.offset_y - (groupBBox g0 rest).y_min)).toNat + g.image.height
        ≤ ⌈(groupBBox g0 rest).y_max - (groupBBox g0 rest).y_min⌉.toNat := by
  obtain ⟨h1, h2, h3, h4⟩ := groupBBox_bounds g0 rest g hg
  constructor
  · rw [destX]
    exact rustRound_add_le_ceil (g.offset_x - (groupBBox g0 rest).x_min)
      ((groupBBox g0 rest).x_max - (groupBBox g0 rest).x_min) g.image.width
      (by linarith) (by linarith)
  · exact rustRound_add_le_ceil (g.offset_y - (groupBBox g0 rest).y_min)
      ((groupBBox g0 rest).y_max - (groupBBox g0 rest).y_min) g.image.height
      (by linarith) (by linarith)

/-- C10: for every member of a non-empty compose group, the destination
rectangle stays inside the allocated buffer: `dest_x + width ≤ total_width`,
the unsigned `total_height - height - round(offset_y - y_min)` subtraction
never truncates (`round + height ≤ total_height`), and
`dest_y + height ≤ total_height`. -/
theorem claim_C10 (g0 : GlyphImage) (rest : List GlyphImage)
    (g : GlyphImage) (hg : g ∈ g0 :: rest) :
    destX (groupBBox g0 rest).x_min g + g.image.width
        ≤ ⌈(groupBBox g0 rest).x_max - (groupBBox g0 rest).x_min⌉.toNat
      ∧ (rustRound (g.offset_y - (groupBBox g0 rest).y_min)).toNat + g.image.height
        ≤ ⌈(groupBBox g0 rest).y_max - (groupBBox g0 rest).y_min⌉.toNat
      ∧ destY ⌈(groupBBox g0 rest).y_max - (groupBBox g0 rest).y_min⌉.toNat
            (groupBBox g0 rest).y_min g + g.image.height
        ≤ ⌈(groupBBox g0 rest).y_max - (groupBBox g0 rest).y_min⌉.toNat := by
  obtain ⟨hx, hy⟩ := compose_bounds g0 rest g hg
  refine ⟨hx, hy, ?_⟩
  rw [destY]
  omega

/-- Witness for C10 at a concrete two-member group. -/
theorem claim_C10_witness :
    destX (groupBBox ⟨0, 0, 0, ⟨2, 1, []⟩⟩ [⟨1, 0, 0, ⟨2, 1, []⟩⟩]).x_min
          ⟨0, 0, 0, ⟨2, 1, []⟩⟩ + (⟨2, 1, []⟩ : Image).width
        ≤ ⌈(groupBBox ⟨0, 0, 0, ⟨2, 1, []⟩⟩ [⟨1, 0, 0, ⟨2, 1, []⟩⟩]).x_max
            - (groupBBox ⟨0, 0, 0, ⟨2, 1, []⟩⟩ [⟨1, 0, 0, ⟨2, 1, []⟩⟩]).x_min⌉.toNat
      ∧ (rustRound ((0 : ℚ)
            - (groupBBox ⟨0, 0, 0, ⟨2, 1, []⟩⟩ [⟨1, 0, 0, ⟨2, 1, []⟩⟩]).y_min)).toNat
          + (⟨2, 1, []⟩ : Image).height
        ≤ ⌈(groupBBox ⟨0, 0, 0, ⟨2, 1, []⟩⟩ [⟨1, 0, 0, ⟨2, 1, []⟩⟩]).y_max
            - (groupBBox ⟨0, 0, 0, ⟨2, 1, []⟩⟩ [⟨1, 0, 0, ⟨2, 1, []⟩⟩]).y_min⌉.toNat
      ∧ destY ⌈(groupBBox ⟨0, 0, 0, ⟨2, 1, []⟩⟩ [⟨1, 0, 0, ⟨2, 1, []⟩⟩]).y_max
              - (groupBBox ⟨0, 0, 0, ⟨2, 1, []⟩⟩ [⟨1, 0, 0, ⟨2, 1, []⟩⟩]).y_min⌉.toNat
            (groupBBox ⟨0, 0, 0, ⟨2, 1, []⟩⟩ [⟨1, 0, 0, ⟨2, 1, []⟩⟩]).y_min
            ⟨0, 0, 0, ⟨2, 1, []⟩⟩ + (⟨2, 1, []⟩ : Image).height
        ≤ ⌈(groupBBox ⟨0, 0, 0, ⟨2, 1, []⟩⟩ [⟨1, 0, 0, ⟨2, 1, []⟩⟩]).y_max
            - (groupBBox ⟨0, 0, 0, ⟨2, 1, []⟩⟩ [⟨1, 0, 0, ⟨2, 1, []⟩⟩]).y_min⌉.toNat :=
  claim_C10 ⟨0, 0, 0, ⟨2, 1, []⟩⟩ [⟨1, 0, 0, ⟨2, 1, []⟩⟩] ⟨0, 0, 0, ⟨2, 1, []⟩⟩
    (List.mem_cons_self _ _)

/-! ## Claim C5: pointwise characterization of the composed buffer -/

theorem getD_set (l : List Rgba) (i p : ℕ) (v d : Rgba) :
    (l.set i v).getD p d = if i = p ∧ i < l.length then v else l.getD p d := by
  rw [List.getD_eq_getElem?_getD, List.getD_eq_getElem?_getD, List.getElem?_set]
  by_cases h1 : i = p
  · subst h1
    by_cases h2 : i < l.length
    · simp [h2]
    · simp [h2, List.getElem?_eq_none (le_of_not_lt h2)]
  · simp [h1]

theorem getD_replicate (n p : ℕ) :
    (List.replicate n Rgba.zero).getD p Rgba.zero = Rgba.zero := by
  rw [List.getD_eq_getElem?_getD, List.getElem?_replicate]
  split <;> rfl

theorem loopN_length (f : ℕ → List Rgba → List Rgba)
    (hf : ∀ k b, (f k b).length = b.length) :
    ∀ (n : ℕ) (buf : List Rgba), (loopN n f buf).length = buf.length := by
  intro n
  induction n with
  | zero => intro buf; rfl
  | succ k ih => intro buf; rw [loopN, hf, ih]

/-- Pointwise description of one blitted row: index `p` holds the row's
source pixel exactly when `p` lies in the written range and that pixel's
alpha is nonzero; otherwise the previous buffer content. -/
theorem loopRow_getD (pix : ℕ → Rgba) (base : ℕ) :
    ∀ (w : ℕ) (buf : List Rgba), base + w ≤ buf.length → ∀ p,
      (loopN w (fun sx b => if (pix sx).a ≠ 0 then b.set (base + sx) (pix sx) else b)
          buf).getD p Rgba.zero
        = if base ≤ p ∧ p < base + w ∧ (pix (p - base)).a ≠ 0
          then pix (p - base) else buf.getD p Rgba.zero := by
  intro w
  induction w with
  | zero =>
    intro buf _ p
    rw [loopN]
    split_ifs with hcond
    · exact absurd hcond.2.1 (by omega)
    · rfl
  | succ n ih =>
    intro buf hlen p
    rw [loopN]
    have hlenInner : (loopN n (fun sx b =>
        if (pix sx).a ≠ 0 then b.set (base + sx) (pix sx) else b) buf).length
        = buf.length := by
      refine loopN_length _ (fun k b => ?_) n buf
      split_ifs <;> simp [List.length_set]
    by_cases ha : (pix n).a ≠ 0
    · rw [if_pos ha, getD_set, hlenInner, ih buf (by omega) p]
      by_cases hp : base + n = p
      · rw [if_pos ⟨hp, by omega⟩]
        have hsub : p - base = n := by omega
        rw [if_pos ⟨by omega, by omega, by rw [hsub]; exact ha⟩, hsub]
      · rw [if_neg (fun hc => hp hc.1)]
        have hiff : (base ≤ p ∧ p < base + n ∧ (pix (p - base)).a ≠ 0)
            ↔ (base ≤ p ∧ p < base + (n + 1) ∧ (pix (p - base)).a ≠ 0) := by
          constructor
          · rintro ⟨u, v, hw2⟩; exact ⟨u, by omega, hw2⟩
          · rintro ⟨u, v, hw2⟩; exact ⟨u, by omega, hw2⟩
        rw [if_congr hiff rfl rfl]
    · rw [if_neg ha, ih buf (by omega) p]
      by_cases hp : base + n = p
      · have hsub : p - base = n := by omega
        rw [if_neg (fun hc => absurd hc.2.1 (by omega)),
          if_neg (fun hc => ha (by have h3 := hc.2.2; rwa [hsub] at h3))]
      · have hiff : (base ≤ p ∧ p < base + n ∧ (pix (p - base)).a ≠ 0)
            ↔ (base ≤ p ∧ p < base + (n + 1) ∧ (pix (p - base)).a ≠ 0) := by
          constructor
          · rintro ⟨u, v, hw2⟩; exact ⟨u, by omega, hw2⟩
          · rintro ⟨u, v, hw2⟩; exact ⟨u, by omega, hw2⟩
        rw [if_congr hiff rfl rfl]

/-- A flat index lies in the row segment `[r*W + dx, r*W + dx + w)` exactly
when its 2D coordinates are row `r` and a column in `[dx, dx + w)`
(provided the segment does not wrap: `dx + w ≤ W`). -/
theorem rowRange_iff (W dx w : ℕ) (hw : dx + w ≤ W) (r p : ℕ) :
    (r * W + dx ≤ p ∧ p < r * W + dx + w)
      ↔ (p / W = r ∧ dx ≤ p % W ∧ p % W < dx + w) := by
  rcases Nat.eq_zero_or_pos w with h0 | hw0
  · subst h0
    constructor
    · rintro ⟨u, v⟩; omega
    · rintro ⟨_, u, v⟩; omega
  · have hW : 0 < W := by omega
    constructor
    · rintro ⟨h1, h2⟩
      have hform : p = (dx + (p - (r * W + dx))) + r * W := by omega
      have hcol : dx + (p - (r * W + dx)) < W := by omega
      have hdiv : p / W = r := by
        conv_lhs => rw [hform]
        rw [Nat.add_mul_div_right _ _ hW, Nat.div_eq_of_lt hcol]
        omega
      have hmod : p % W = dx + (p - (r * W + dx)) := by
        conv_lhs => rw [hform]
        rw [Nat.add_mul_mod_self_right, Nat.mod_eq_of_lt hcol]
      exact ⟨hdiv, by omega, by omega⟩
    · rintro ⟨h1, h2, h3⟩
      have hdm := Nat.div_add_mod p W
      rw [h1] at hdm
      have hcomm : W * r = r * W := Nat.mul_comm W r
      rw [hcomm] at hdm
      omega

/-- Pointwise description of the nested row/column blit loops of one member:
index `p` (2D coordinates `(p % W, p / W)`) holds the member's source pixel
exactly when it lies in the member's destination rectangle and the source
pixel's alpha is nonzero. -/
theorem loopRows_getD (W dx w : ℕ) (pix : ℕ → ℕ → Rgba) (hw : dx + w ≤ W) (dy : ℕ) :
    ∀ (h : ℕ) (buf : List Rgba), (dy + h) * W ≤ buf.length → ∀ p,
      (loopN h (fun sy b =>
          loopN w (fun sx b' =>
            if (pix sy sx).a ≠ 0 then b'.set ((dy + sy) * W + dx + sx) (pix sy sx)
            else b') b)
          buf).getD p Rgba.zero
        = if dy ≤ p / W ∧ p / W < dy + h ∧ dx ≤ p % W ∧ p % W < dx + w
            ∧ (pix (p / W - dy) (p % W - dx)).a ≠ 0
          then pix (p / W - dy) (p % W - dx)
          else buf.getD p Rgba.zero := by
  intro h
  induction h with
  | zero =>
    intro buf _ p
    rw [loopN]
    split_ifs with hcond
    · exact absurd hcond.2.1 (by omega)
    · rfl
  | succ n ih =>
    intro buf hlen p
    have hmono : (dy + n) * W ≤ buf.length :=
      le_trans (Nat.mul_le_mul_right W (by omega)) hlen
    have hlenInner : (loopN n (fun sy b =>
        loopN w (fun sx b' =>
          if (pix sy sx).a ≠ 0 then b'.set ((dy + sy) * W + dx + sx) (pix sy sx)
          else b') b) buf).length = buf.length := by
      refine loopN_length _ (fun k b => ?_) n buf
      refine loopN_length _ (fun k' b' => ?_) w b
      split_ifs <;> simp [List.length_set]
    have hrowlen : ((dy + n) * W + dx) + w
        ≤ (loopN n (fun sy b =>
            loopN w (fun sx b' =>
              if (pix sy sx).a ≠ 0 then b'.set ((dy + sy) * W + dx + sx) (pix sy sx)
              else b') b) buf).length := by
      rw [hlenInner]
      have h2 : (dy + n) * W + W = (dy + n + 1) * W := (Nat.succ_mul (dy + n) W).symm
      have h3 : (dy + n + 1) * W ≤ buf.length := by
        rw [show dy + n + 1 = dy + (n + 1) by omega]
        exact hlen
      omega
    rw [loopN]
    rw [loopRow_getD (pix n) ((dy + n) * W + dx) w _ hrowlen p, ih buf hmono p]
    by_cases hrow : ((dy + n) * W + dx ≤ p ∧ p < (dy + n) * W + dx + w)
    · obtain ⟨hpy, hpx1, hpx2⟩ := (rowRange_iff W dx w hw (dy + n) p).mp hrow
      have hp2 : p = (dy + n) * W + p % W := by
        have hdm := Nat.div_add_mod p W
        rw [hpy] at hdm
        have hcomm : W * (dy + n) = (dy + n) * W := Nat.mul_comm _ _
        omega
      have hsub : p - ((dy + n) * W + dx) = p % W - dx := by omega
      have hrown : p / W - dy = n := by omega
      by_cases halpha : (pix n (p - ((dy + n) * W + dx))).a ≠ 0
      · rw [if_pos ⟨hrow.1, hrow.2, halpha⟩]
        have hval : pix n (p - ((dy + n) * W + dx)) = pix (p / W - dy) (p % W - dx) := by
          rw [hsub, hrown]
        rw [if_pos ⟨by omega, by omega, hpx1, hpx2, by rw [← hval]; exact halpha⟩]
        exact hval
      · have hnotInner : ¬(dy ≤ p / W ∧ p / W < dy + n ∧ dx ≤ p % W ∧ p % W < dx + w
            ∧ (pix (p / W - dy) (p % W - dx)).a ≠ 0) :=
          fun hc => absurd hc.2.1 (by omega)
        have hnotR : ¬(dy ≤ p / W ∧ p / W < dy + (n + 1) ∧ dx ≤ p % W ∧ p % W < dx + w
            ∧ (pix (p / W - dy) (p % W - dx)).a ≠ 0) := by
          rintro ⟨_, _, _, _, hA⟩
          rw [hrown, ← hsub] at hA
          exact halpha hA
        rw [if_neg (fun hc => halpha hc.2.2), if_neg hnotInner, if_neg hnotR]
    · have hnotrow : ¬((dy + n) * W + dx ≤ p ∧ p < (dy + n) * W + dx + w
          ∧ (pix n (p - ((dy + n) * W + dx))).a ≠ 0) :=
        fun hc => hrow ⟨hc.1, hc.2.1⟩
      rw [if_neg hnotrow]
      have hiff : (dy ≤ p / W ∧ p / W < dy + n ∧ dx ≤ p % W ∧ p % W < dx + w
            ∧ (pix (p / W - dy) (p % W - dx)).a ≠ 0)
          ↔ (dy ≤ p / W ∧ p / W < dy + (n + 1) ∧ dx ≤ p % W ∧ p % W < dx + w
            ∧ (pix (p / W - dy) (p % W - dx)).a ≠ 0) := by
        constructor
        · rintro ⟨a, b, c, d, e⟩; exact ⟨a, by omega, c, d, e⟩
        · rintro ⟨a, b, c, d, e⟩
          refine ⟨a, ?_, c, d, e⟩
          by_cases hb : p / W < dy + n
          · exact hb
          · exact absurd ((rowRange_iff W dx w hw (dy + n) p).mpr ⟨by omega, c, d⟩) hrow
      rw [if_congr hiff rfl rfl]

theorem blitGlyph_length (W H : ℕ) (xmin ymin : ℚ) (buf : List Rgba) (g : GlyphImage) :
    (blitGlyph W H xmin ymin buf g).length = buf.length := by
  simp only [blitGlyph]
  refine loopN_length _ (fun k b => ?_) _ buf
  refine loopN_length _ (fun k' b' => ?_) _ b
  split_ifs <;> simp [List.length_set]

theorem blitGlyph_getD (W H : ℕ) (xmin ymin : ℚ) (g : GlyphImage) (buf : List Rgba)
    (hlen : buf.length = W * H)
    (hx : destX xmin g + g.image.width ≤ W)
    (hyH : destY H ymin g + g.image.height ≤ H) (p : ℕ) :
    (blitGlyph W H xmin ymin buf g).getD p Rgba.zero
      = if destY H ymin g ≤ p / W ∧ p / W < destY H ymin g + g.image.height
          ∧ destX xmin g ≤ p % W ∧ p % W < destX xmin g + g.image.width
          ∧ (g.image.pixel ((p / W - destY H ymin g) * g.image.width
              + (p % W - destX xmin g))).a ≠ 0
        then g.image.pixel ((p / W - destY H ymin g) * g.image.width
            + (p % W - destX xmin g))
        else buf.getD p Rgba.zero := by
  have hbuf : (destY H ymin g + g.image.height) * W ≤ buf.length := by
    rw [hlen, Nat.mul_comm W H]
    exact Nat.mul_le_mul_right W hyH
  simp only [blitGlyph]
  exact loopRows_getD W (destX xmin g) g.image.width
    (fun sy sx => g.image.pixel (sy * g.image.width + sx)) hx (destY H ymin g)
    g.image.height buf hbuf p

theorem foldBlit_getD (W H : ℕ) (xmin ymin : ℚ) :
    ∀ (gs : List GlyphImage) (buf : List Rgba), buf.length = W * H →
      (∀ g ∈ gs, destX xmin g + g.image.width ≤ W
          ∧ destY H ymin g + g.image.height ≤ H) →
      ∀ p, (gs.foldl (blitGlyph W H xmin ymin) buf).getD p Rgba.zero
        = gs.foldl (fun acc g =>
            if destY H ymin g ≤ p / W ∧ p / W < destY H ymin g + g.image.height
              ∧ destX xmin g ≤ p % W ∧ p % W < destX xmin g + g.image.width
              ∧ (g.image.pixel ((p / W - destY H ymin g) * g.image.width
                  + (p % W - destX xmin g))).a ≠ 0
            then g.image.pixel ((p / W - destY H ymin g) * g.image.width
                + (p % W - destX xmin g))
            else acc) (buf.getD p Rgba.zero) := by
  intro gs
  induction gs with
  | nil => intro buf _ _ p; rfl
  | cons g t ih =>
    intro buf hlen hb p
    rw [List.foldl_cons, List.foldl_cons]
    rw [ih (blitGlyph W H xmin ymin buf g) (by rw [blitGlyph_length, hlen])
      (fun g' hg' => hb g' (List.mem_cons_of_mem g hg')) p]
    rw [blitGlyph_getD W H xmin ymin g buf hlen
      (hb g (List.mem_cons_self g t)).1 (hb g (List.mem_cons_self g t)).2 p]

theorem composeData_length (W H : ℕ) (xmin ymin : ℚ) (gs : List GlyphImage) :
    (composeData W H xmin ymin gs).length = W * H := by
  rw [composeData]
  have hfold : ∀ (l : List GlyphImage) (buf : List Rgba),
      (l.foldl (blitGlyph W H xmin ymin) buf).length = buf.length := by
    intro l
    induction l with
    | nil => intro buf; rfl
    | cons g t ih => intro buf; rw [List.foldl_cons, ih, blitGlyph_length]
  rw [hfold, List.length_replicate]

/-- Modelled from the claim's wording (the spec side of C5): the composed
buffer's pixel at flat index `p` (2D coordinates `(p % W, p / W)`) is the
source pixel of the last member, in glyph-creation order, whose destination
rectangle — origin `dest_x = round(offset_x - x_min)`,
`dest_y = total_height - height - round(offset_y - y_min)` — covers `p` with
a nonzero source alpha; transparent zero if no member covers it. -/
def lastWriterPixel (W H : ℕ) (xmin ymin : ℚ) (gs : List GlyphImage) (p : ℕ) : Rgba :=
  gs.foldl (fun acc g =>
    if H - g.image.height - (rustRound (g.offset_y - ymin)).toNat ≤ p / W
      ∧ p / W < H - g.image.height - (rustRound (g.offset_y - ymin)).toNat
          + g.image.height
      ∧ (rustRound (g.offset_x - xmin)).toNat ≤ p % W
      ∧ p % W < (rustRound (g.offset_x - xmin)).toNat + g.image.width
      ∧ (g.image.pixel ((p / W - (H - g.image.height
            - (rustRound (g.offset_y - ymin)).toNat)) * g.image.width
          + (p % W - (rustRound (g.offset_x - xmin)).toNat))).a ≠ 0
    then g.image.pixel ((p / W - (H - g.image.height
            - (rustRound (g.offset_y - ymin)).toNat)) * g.image.width
        + (p % W - (rustRound (g.offset_x - xmin)).toNat))
    else acc) Rgba.zero

/-- C5: for a non-empty compose group, the composed atlas is the
`⌈x_max-x_min⌉ × ⌈y_max-y_min⌉` buffer over the group's bounding box, its
origin is `(x_min, y_min)` and its z the first member's z, and every pixel is
exactly the last-writer-wins alpha-gated copy of the members' pixels at their
destination rectangles (`lastWriterPixel`), transparent where no member with
nonzero alpha lands — the zero-initialized allocation. -/
theorem claim_C5 (g0 : GlyphImage) (rest : List GlyphImage) (a : Assets) :
    (composeImage g0 rest).width
        = ⌈(groupBBox g0 rest).x_max - (groupBBox g0 rest).x_min⌉.toNat
      ∧ (composeImage g0 rest).height
        = ⌈(groupBBox g0 rest).y_max - (groupBBox g0 rest).y_min⌉.toNat
      ∧ (composeImage g0 rest).data.length
        = (composeImage g0 rest).width * (composeImage g0 rest).height
      ∧ (compose_glyph_images a g0 rest).1.x = (groupBBox g0 rest).x_min
      ∧ (compose_glyph_images a g0 rest).1.y = (groupBBox g0 rest).y_min
      ∧ (compose_glyph_images a g0 rest).1.z = g0.offset_z
      ∧ ∀ p, (composeImage g0 rest).pixel p
          = lastWriterPixel ⌈(groupBBox g0 rest).x_max - (groupBBox g0 rest).x_min⌉.toNat
              ⌈(groupBBox g0 rest).y_max - (groupBBox g0 rest).y_min⌉.toNat
              (groupBBox g0 rest).x_min (groupBBox g0 rest).y_min (g0 :: rest) p := by
  refine ⟨rfl, rfl, ?_, rfl, rfl, rfl, ?_⟩
  · show (composeData _ _ _ _ _).length = _
    rw [composeData_length]
    rfl
  · intro p
    show (composeData _ _ _ _ (g0 :: rest)).getD p Rgba.zero = _
    rw [composeData]
    rw [foldBlit_getD _ _ _ _ (g0 :: rest) _ (List.length_replicate _ _)
      (fun g hg => ⟨(compose_bounds g0 rest g hg).1,
        by have := (compose_bounds g0 rest g hg).2; rw [destY]; omega⟩) p]
    rw [getD_replicate]
    simp only [lastWriterPixel, destX, destY]

end BevySwash
